import Mathlib

/-!
A verification development for the calc expression evaluator (src/calc.c).

The C program is embedded shallowly:

* `double` is modelled as an exact rational (`ℚ`).  Every numeric computation
  exercised by the properties below (small integer literals, sums, products,
  powers with integer exponents) is exact in IEEE double precision, so the
  exact model agrees with the C program on them.
* `long long` is modelled as `ℤ` with explicit two's-complement wraparound
  (`wrap64`) applied where the C program performs 64-bit signed arithmetic,
  following the specification's statement that integer arithmetic wraps at the
  native width.
* The scanner's `(src, len, idx0)` triple is modelled by the list of not yet
  consumed characters (`rest`); the C code only ever reads `src` at or after
  `idx0` and compares `idx0` with `len`.
* The mutually recursive parsing functions are modelled with an explicit fuel
  parameter and return `none` when the fuel runs out; a theorem below shows a
  concrete fuel bound that always suffices, which is the termination property
  of the C program.
-/

namespace CalcLab

/-- Two's-complement wraparound of 64-bit signed integer arithmetic. -/
def wrap64 (x : ℤ) : ℤ := (x + 2 ^ 63) % 2 ^ 64 - 2 ^ 63

/-!
Exact rational arithmetic.  The library operations on `ℚ` are `@[irreducible]`,
which prevents kernel evaluation of concrete runs of the evaluator; the model
therefore uses its own normalizing operations built on the reducible smart
constructors `mkRat` and `Rat.divInt`.  The lemmas `qadd_eq`, `qsub_eq`,
`qmul_eq`, `qdiv_eq`, `qpowN_eq` and `qpowZ_eq` prove that they agree with the
library operations, so theorems stated with them are theorems about ordinary
rational arithmetic.
-/

/-- Normalizing rational addition. -/
def qadd (a b : ℚ) : ℚ := mkRat (a.num * b.den + b.num * a.den) (a.den * b.den)

/-- Normalizing rational subtraction. -/
def qsub (a b : ℚ) : ℚ := mkRat (a.num * b.den - b.num * a.den) (a.den * b.den)

/-- Normalizing rational multiplication. -/
def qmul (a b : ℚ) : ℚ := mkRat (a.num * b.num) (a.den * b.den)

/-- Normalizing rational division (yielding 0 on a zero divisor, which the
evaluator never exercises: division by zero is caught beforehand). -/
def qdiv (a b : ℚ) : ℚ := Rat.divInt (a.num * b.den) (a.den * b.num)

/-- Rational power with a natural exponent. -/
def qpowN (b : ℚ) : ℕ → ℚ
  | 0 => 1
  | n + 1 => qmul (qpowN b n) b

/-- Rational reciprocal. -/
def qinv (a : ℚ) : ℚ := Rat.divInt a.den a.num

/-- Rational power with an integer exponent. -/
def qpowZ (b : ℚ) (e : ℤ) : ℚ :=
  if e < 0 then qinv (qpowN b (-e).toNat) else qpowN b e.toNat

/-- The C library function `fabs` in the exact rational model. -/
def fabsQ (a : ℚ) : ℚ := if a.num < 0 then -a else a

theorem qadd_eq (a b : ℚ) : qadd a b = a + b := by
  have had : ((a.den : ℚ)) ≠ 0 := by exact_mod_cast a.den_pos.ne'
  have hbd : ((b.den : ℚ)) ≠ 0 := by exact_mod_cast b.den_pos.ne'
  have ha' : (a.num : ℚ) = a * a.den := (div_eq_iff had).1 (Rat.num_div_den a)
  have hb' : (b.num : ℚ) = b * b.den := (div_eq_iff hbd).1 (Rat.num_div_den b)
  rw [qadd, Rat.mkRat_eq_div]
  push_cast
  rw [div_eq_iff (mul_ne_zero had hbd), ha', hb']
  ring

theorem qsub_eq (a b : ℚ) : qsub a b = a - b := by
  have had : ((a.den : ℚ)) ≠ 0 := by exact_mod_cast a.den_pos.ne'
  have hbd : ((b.den : ℚ)) ≠ 0 := by exact_mod_cast b.den_pos.ne'
  have ha' : (a.num : ℚ) = a * a.den := (div_eq_iff had).1 (Rat.num_div_den a)
  have hb' : (b.num : ℚ) = b * b.den := (div_eq_iff hbd).1 (Rat.num_div_den b)
  rw [qsub, Rat.mkRat_eq_div]
  push_cast
  rw [div_eq_iff (mul_ne_zero had hbd), ha', hb']
  ring

theorem qmul_eq (a b : ℚ) : qmul a b = a * b := by
  have had : ((a.den : ℚ)) ≠ 0 := by exact_mod_cast a.den_pos.ne'
  have hbd : ((b.den : ℚ)) ≠ 0 := by exact_mod_cast b.den_pos.ne'
  have ha' : (a.num : ℚ) = a * a.den := (div_eq_iff had).1 (Rat.num_div_den a)
  have hb' : (b.num : ℚ) = b * b.den := (div_eq_iff hbd).1 (Rat.num_div_den b)
  rw [qmul, Rat.mkRat_eq_div]
  push_cast
  rw [div_eq_iff (mul_ne_zero had hbd), ha', hb']
  ring

theorem qdiv_eq (a b : ℚ) : qdiv a b = a / b := by
  rw [qdiv, Rat.divInt_eq_div]
  rcases eq_or_ne b 0 with hb | hb
  · subst hb; simp
  · have had : ((a.den : ℚ)) ≠ 0 := by exact_mod_cast a.den_pos.ne'
    have hbd : ((b.den : ℚ)) ≠ 0 := by exact_mod_cast b.den_pos.ne'
    have hbn : ((b.num : ℚ)) ≠ 0 := by exact_mod_cast Rat.num_ne_zero.2 hb
    have ha' : (a.num : ℚ) = a * a.den := (div_eq_iff had).1 (Rat.num_div_den a)
    have hb' : (b.num : ℚ) = b * b.den := (div_eq_iff hbd).1 (Rat.num_div_den b)
    push_cast
    rw [div_eq_div_iff (mul_ne_zero had hbn) hb, ha', hb']
    ring

theorem qinv_eq (a : ℚ) : qinv a = a⁻¹ := by
  rw [qinv, Rat.divInt_eq_div]
  rcases eq_or_ne a 0 with h | h
  · subst h; norm_num
  · have had : ((a.den : ℚ)) ≠ 0 := by exact_mod_cast a.den_pos.ne'
    have han : ((a.num : ℚ)) ≠ 0 := by exact_mod_cast Rat.num_ne_zero.2 h
    have ha' : (a.num : ℚ) = a * a.den := (div_eq_iff had).1 (Rat.num_div_den a)
    push_cast
    rw [inv_eq_one_div, div_eq_div_iff han h, ha']
    ring

theorem qpowN_eq (b : ℚ) (n : ℕ) : qpowN b n = b ^ n := by
  induction n with
  | zero => rw [qpowN, pow_zero]
  | succ n ih => rw [qpowN, qmul_eq, ih, pow_succ]

theorem qpowZ_eq (b : ℚ) (e : ℤ) : qpowZ b e = b ^ e := by
  rw [qpowZ]
  rcases lt_or_le e 0 with h | h
  · rw [if_pos h, qinv_eq, qpowN_eq, ← zpow_natCast, Int.toNat_of_nonneg (by omega),
      ← zpow_neg, neg_neg]
  · rw [if_neg (not_lt.2 h), qpowN_eq, ← zpow_natCast, Int.toNat_of_nonneg h]

theorem fabsQ_eq (a : ℚ) : fabsQ a = |a| := by
  rw [fabsQ]
  rcases lt_or_le a.num 0 with h | h
  · have hneg : a < 0 := by
      by_contra hc
      exact absurd (Rat.num_nonneg.2 (not_lt.1 hc)) (not_le.2 h)
    rw [if_pos h, abs_of_neg hneg]
  · rw [if_neg (not_lt.2 h), abs_of_nonneg (Rat.num_nonneg.1 h)]

/-- The `Value` struct of calc.c: a number that is either an integer
(`is_float = 0`, field `i`) or a floating-point number (`is_float = 1`,
field `d`).  The C struct carries both fields but only ever reads the field
selected by the tag, so a sum type is a faithful model. -/
inductive Value where
  | int (i : ℤ)
  | float (d : ℚ)
deriving DecidableEq, Repr

/-- Constructor `make_int` of calc.c. -/
def make_int (x : ℤ) : Value := Value.int x

/-- Constructor `make_double` of calc.c. -/
def make_double (x : ℚ) : Value := Value.float x

/-- The `is_float` tag of a `Value`. -/
def Value.is_float : Value → Bool
  | Value.int _ => false
  | Value.float _ => true

/-- The promotion read `a.is_float ? a.d : (double)a.i` used by the arithmetic
helpers of calc.c. -/
def toDouble : Value → ℚ
  | Value.int i => (i : ℚ)
  | Value.float d => d

/-- `is_zero` of calc.c: floats compare `fabs(d) == 0.0`, integers `i == 0`. -/
def is_zero : Value → Bool
  | Value.int i => i == 0
  | Value.float d => fabsQ d == 0

/-- `v_add` of calc.c: integer sum when both operands are integers, otherwise
both operands are promoted to double and added. -/
def v_add (a b : Value) : Value :=
  match a, b with
  | Value.int x, Value.int y => make_int (wrap64 (x + y))
  | _, _ => make_double (qadd (toDouble a) (toDouble b))

/-- `v_sub` of calc.c. -/
def v_sub (a b : Value) : Value :=
  match a, b with
  | Value.int x, Value.int y => make_int (wrap64 (x - y))
  | _, _ => make_double (qsub (toDouble a) (toDouble b))

/-- `v_mul` of calc.c. -/
def v_mul (a b : Value) : Value :=
  match a, b with
  | Value.int x, Value.int y => make_int (wrap64 (x * y))
  | _, _ => make_double (qmul (toDouble a) (toDouble b))

/-- `v_div` of calc.c.  It receives the current error position and the
position of the `/` token; on a zero divisor it latches the error (only when
no error is latched yet) and returns the dummy `Integer(0)`, otherwise it
divides in double precision.  The pair returned models the C function's
result value together with the `*err_pos` out-parameter. -/
def v_div (a b : Value) (err_pos slash_pos : ℕ) : Value × ℕ :=
  if is_zero b then
    (make_int 0, if err_pos = 0 then slash_pos else err_pos)
  else
    (make_double (qdiv (toDouble a) (toDouble b)), err_pos)

/-- Modelled from the spec: the C library function `pow`, which the spec
describes as "the standard real-exponentiation function" and which is not part
of src/.  In the exact rational model it is defined on integer exponents,
where real exponentiation agrees with iterated multiplication (all claims
exercise only integer exponents); a non-integer exponent lies outside the
exact model and yields a junk value. -/
def powQ (b e : ℚ) : ℚ := if e.den = 1 then qpowZ b e.num else 0

/-- `v_pow` of calc.c: both operands are promoted to double and the result is
always a floating-point value. -/
def v_pow (base exp : Value) : Value :=
  make_double (powQ (toDouble base) (toDouble exp))

/-- The inline kind-preserving negation in `parse_unary` of calc.c
(`v.is_float ? make_double(-v.d) : make_int(-v.i)`). -/
def negate (v : Value) : Value :=
  match v with
  | Value.int i => make_int (wrap64 (-i))
  | Value.float d => make_double (-d)

/-- Token kinds of calc.c (`TokType`). -/
inductive TokType where
  | t_eof | t_num | t_plus | t_minus | t_star | t_slash | t_pow
  | t_lparen | t_rparen | t_invalid
deriving DecidableEq, Repr

/-- The `Token` struct of calc.c. -/
structure Token where
  type : TokType
  start_pos : ℕ
  is_float : Bool
  i : ℤ
  d : ℚ
deriving DecidableEq, Repr

/-- `make_simple` of calc.c: a token with the given kind and position and all
numeric fields zeroed (the C code memsets the struct). -/
def make_simple (t : TokType) (p : ℕ) : Token := ⟨t, p, false, 0, 0⟩

/-- The `Scanner` struct of calc.c.  `rest` models `(src, len, idx0)` as the
not yet consumed suffix of the input, `pos` is the 1-based display position,
`err_pos` the set-once error position (0 meaning unset) and `cur` the current
token held by the parser. -/
structure Scanner where
  rest : List Char
  pos : ℕ
  err_pos : ℕ
  cur : Token
deriving DecidableEq, Repr

/-- `set_error` of calc.c: records an error position only when none is
recorded yet. -/
def set_error (S : Scanner) (p : ℕ) : Scanner :=
  if S.err_pos = 0 then ⟨S.rest, S.pos, p, S.cur⟩ else S

/-- Whitespace characters skipped by the lexer of calc.c. -/
def isWs (c : Char) : Bool := c = ' ' || c = '\t' || c = '\r' || c = '\n'

/-- The combined whitespace/comment skipping loop of calc.c
(`skip_ws_and_comments`), written with an explicit mode flag: `false` is the
outer whitespace-skipping state, `true` is the state inside a `#` comment
(consuming up to the newline, which the outer state then consumes as
whitespace — folded here into a single step). -/
def skip_loop : Bool → List Char → ℕ → List Char × ℕ
  | _, [], p => ([], p)
  | false, c :: r, p =>
    if isWs c then skip_loop false r (p + 1)
    else if c = '#' then skip_loop true r (p + 1)
    else (c :: r, p)
  | true, c :: r, p =>
    if c = '\n' then skip_loop false r (p + 1) else skip_loop true r (p + 1)

/-- `skip_ws_and_comments` of calc.c. -/
def skip_ws_and_comments (l : List Char) (p : ℕ) : List Char × ℕ :=
  skip_loop false l p

/-- Numeric value of a digit character. -/
def digit_val (c : Char) : ℕ := c.toNat - 48

/-- Splits off the longest leading run of decimal digits. -/
def take_digits : List Char → List Char × List Char
  | [] => ([], [])
  | c :: r =>
    if c.isDigit then
      let p := take_digits r
      (c :: p.1, p.2)
    else ([], c :: r)

/-- Value of a digit string. -/
def digitsNat (l : List Char) : ℕ := l.foldl (fun a c => 10 * a + digit_val c) 0

/-- Modelled from the spec: the mantissa part of the decimal number syntax
accepted by the C library function `strtod` (not part of src/) at a cursor
whose first character is a digit or a dot — optional leading digits, optional
dot with optional following digits, at least one digit overall.  Returns the
integer digits, whether a dot was consumed, the fraction digits and the
remaining characters; `none` when no valid literal starts here (for example a
lone dot). -/
def scan_mantissa (l : List Char) : Option (List Char × Bool × List Char × List Char) :=
  let p1 := take_digits l
  match p1.2 with
  | '.' :: r2 =>
    let p2 := take_digits r2
    if p1.1 = [] ∧ p2.1 = [] then none else some (p1.1, true, p2.1, p2.2)
  | _ => if p1.1 = [] then none else some (p1.1, false, [], p1.2)

/-- Modelled from the spec: the exponent part of the `strtod` number syntax —
`e` or `E`, an optional sign, then digits; it is part of the consumed literal
only when at least one digit follows (`strtod` consumes the longest valid
prefix).  Returns the signed exponent value, the number of characters
consumed, and the remaining characters. -/
def scan_exponent (l : List Char) : ℤ × ℕ × List Char :=
  match l with
  | [] => (0, 0, [])
  | c :: rest =>
    if c = 'e' ∨ c = 'E' then
      match rest with
      | [] => (0, 0, l)
      | s :: rest2 =>
        if s = '+' then
          let p := take_digits rest2
          if p.1 = [] then (0, 0, l) else ((digitsNat p.1 : ℤ), p.1.length + 2, p.2)
        else if s = '-' then
          let p := take_digits rest2
          if p.1 = [] then (0, 0, l) else (-(digitsNat p.1 : ℤ), p.1.length + 2, p.2)
        else
          let p := take_digits rest
          if p.1 = [] then (0, 0, l) else ((digitsNat p.1 : ℤ), p.1.length + 1, p.2)
    else (0, 0, l)

/-- `scan_number` of calc.c, operating on `(rest, pos)`.  The C code calls
`strtod`; when it consumes nothing an invalid token is produced at the current
position without advancing.  Otherwise the consumed text is classified: if it
contains a dot or an exponent character the token is a float (here: the
mantissa consumed a dot, or the exponent part is nonempty — equivalent, since
the consumed text contains a dot or `e`/`E` exactly in those cases); otherwise
it is reparsed by `strtoll`, falling back to the float value when the integer
parse would overflow (`> 2^63 - 1`; no sign is possible at this call site). -/
def scan_number (l : List Char) (pos : ℕ) : Token × List Char × ℕ :=
  match scan_mantissa l with
  | none => (make_simple TokType.t_invalid pos, l, pos)
  | some (d1, hasDot, d2, r1) =>
    let e := scan_exponent r1
    let used := d1.length + (if hasDot then 1 else 0) + d2.length + e.2.1
    let dv : ℚ :=
      qmul (qadd (digitsNat d1 : ℚ) (qdiv (digitsNat d2 : ℚ) (qpowN 10 d2.length)))
        (qpowZ 10 e.1)
    if hasDot ∨ e.2.1 ≠ 0 then
      (⟨TokType.t_num, pos, true, 0, dv⟩, e.2.2, pos + used)
    else if digitsNat d1 > 2 ^ 63 - 1 then
      (⟨TokType.t_num, pos, true, 0, dv⟩, e.2.2, pos + used)
    else
      (⟨TokType.t_num, pos, false, (digitsNat d1 : ℤ), dv⟩, e.2.2, pos + used)

/-- `next_token` of calc.c: skip whitespace and comments, then classify the
next character. -/
def next_token (l : List Char) (pos : ℕ) : Token × List Char × ℕ :=
  let s := skip_ws_and_comments l pos
  match s.1 with
  | [] => (make_simple TokType.t_eof s.2, [], s.2)
  | c :: r =>
    if c.isDigit ∨ c = '.' then scan_number s.1 s.2
    else if c = '+' then (make_simple TokType.t_plus s.2, r, s.2 + 1)
    else if c = '-' then (make_simple TokType.t_minus s.2, r, s.2 + 1)
    else if c = '(' then (make_simple TokType.t_lparen s.2, r, s.2 + 1)
    else if c = ')' then (make_simple TokType.t_rparen s.2, r, s.2 + 1)
    else if c = '/' then (make_simple TokType.t_slash s.2, r, s.2 + 1)
    else if c = '*' then
      if r.head? = some '*' then (make_simple TokType.t_pow s.2, r.tail, s.2 + 2)
      else (make_simple TokType.t_star s.2, r, s.2 + 1)
    else (make_simple TokType.t_invalid s.2, r, s.2 + 1)

/-- `advance` of calc.c: pull the next token into `cur`. -/
def advance (S : Scanner) : Scanner :=
  let t := next_token S.rest S.pos
  ⟨t.2.1, t.2.2, S.err_pos, t.1⟩

mutual

/-- `parse_expr` of calc.c: `term { (+|-) term }`, fuelled. -/
def parse_expr : ℕ → Scanner → Option (Value × Scanner)
  | 0, _ => none
  | f + 1, S =>
    match parse_term f S with
    | none => none
    | some (v, S1) => parse_expr_loop f v S1

/-- The accumulation loop of `parse_expr` of calc.c. -/
def parse_expr_loop : ℕ → Value → Scanner → Option (Value × Scanner)
  | 0, _, _ => none
  | f + 1, v, S =>
    if S.cur.type = TokType.t_plus ∨ S.cur.type = TokType.t_minus then
      let op := S.cur.type
      match parse_term f (advance S) with
      | none => none
      | some (r, S1) =>
        if S1.err_pos ≠ 0 then some (make_int 0, S1)
        else parse_expr_loop f (if op = TokType.t_plus then v_add v r else v_sub v r) S1
    else some (v, S)

/-- `parse_term` of calc.c: `power { (*|/) power }`, fuelled. -/
def parse_term : ℕ → Scanner → Option (Value × Scanner)
  | 0, _ => none
  | f + 1, S =>
    match parse_power f S with
    | none => none
    | some (v, S1) => parse_term_loop f v S1

/-- The accumulation loop of `parse_term` of calc.c; it remembers the position
of the `*`/`/` token (`slash_pos`) before advancing, and hands it to `v_div`. -/
def parse_term_loop : ℕ → Value → Scanner → Option (Value × Scanner)
  | 0, _, _ => none
  | f + 1, v, S =>
    if S.cur.type = TokType.t_star ∨ S.cur.type = TokType.t_slash then
      let op := S.cur.type
      let slash_pos := S.cur.start_pos
      match parse_power f (advance S) with
      | none => none
      | some (r, S1) =>
        if S1.err_pos ≠ 0 then some (make_int 0, S1)
        else
          let vr := if op = TokType.t_star then (v_mul v r, S1.err_pos)
                    else v_div v r S1.err_pos slash_pos
          let S2 : Scanner := ⟨S1.rest, S1.pos, vr.2, S1.cur⟩
          if S2.err_pos ≠ 0 then some (make_int 0, S2)
          else parse_term_loop f vr.1 S2
    else some (v, S)

/-- `parse_power` of calc.c: `unary ( ** power )?` — right-associative via the
recursive call on the right-hand side; note there is no error check in this
rule. -/
def parse_power : ℕ → Scanner → Option (Value × Scanner)
  | 0, _ => none
  | f + 1, S =>
    match parse_unary f S with
    | none => none
    | some (left, S1) =>
      if S1.cur.type = TokType.t_pow then
        match parse_power f (advance S1) with
        | none => none
        | some (right, S2) => some (v_pow left right, S2)
      else some (left, S1)

/-- `parse_unary` of calc.c: `(+|-) unary | primary`. -/
def parse_unary : ℕ → Scanner → Option (Value × Scanner)
  | 0, _ => none
  | f + 1, S =>
    if S.cur.type = TokType.t_plus then parse_unary f (advance S)
    else if S.cur.type = TokType.t_minus then
      match parse_unary f (advance S) with
      | none => none
      | some (v, S1) => some (negate v, S1)
    else parse_primary f S

/-- `parse_primary` of calc.c: a number, a parenthesized expression, or the
unexpected-token error branch. -/
def parse_primary : ℕ → Scanner → Option (Value × Scanner)
  | 0, _ => none
  | f + 1, S =>
    if S.cur.type = TokType.t_num then
      some (if S.cur.is_float then make_double S.cur.d else make_int S.cur.i, advance S)
    else if S.cur.type = TokType.t_lparen then
      match parse_expr f (advance S) with
      | none => none
      | some (inside, S1) =>
        if S1.err_pos ≠ 0 then some (make_int 0, S1)
        else if S1.cur.type ≠ TokType.t_rparen then
          if S1.cur.type = TokType.t_eof then some (make_int 0, set_error S1 S1.pos)
          else some (make_int 0, set_error S1 S1.cur.start_pos)
        else some (inside, advance S1)
    else some (make_int 0, advance (set_error S S.cur.start_pos))

end

/-- The `EvalResult` struct of calc.c. -/
structure EvalResult where
  ok : Bool
  v : Value
  err_pos : ℕ
deriving DecidableEq, Repr

/-- The freshly initialized scanner of `eval_buffer` (the C code memsets the
struct, leaving a zeroed end-of-input token in `cur`, and sets `pos = 1`). -/
def init_scanner (buf : List Char) : Scanner :=
  ⟨buf, 1, 0, make_simple TokType.t_eof 0⟩

/-- `eval_buffer` of calc.c with an explicit fuel for the parser. -/
def eval_bufferF (fuel : ℕ) (buf : List Char) : Option EvalResult :=
  let S1 := advance (init_scanner buf)
  match parse_expr fuel S1 with
  | none => none
  | some (v, S2) =>
    if S2.err_pos ≠ 0 then some ⟨false, make_int 0, S2.err_pos⟩
    else if S2.cur.type ≠ TokType.t_eof then
      some ⟨false, make_int 0, (set_error S2 S2.cur.start_pos).err_pos⟩
    else some ⟨true, v, 0⟩

/-- `eval_buffer` of calc.c, at a fuel that is proven sufficient below. -/
def eval_buffer (buf : List Char) : Option EvalResult :=
  eval_bufferF (8 * buf.length + 16) buf

/-!
Lexer facts: the skipping loop never lengthens the input, and `next_token`
consumes at least as many characters as the "token weight" `consW` of the
token it produces — every token other than end-of-input and the
invalid-number token consumes at least one character (two for `**`).
-/

/-- Weight of a token kind for the termination measure: 1 for every kind whose
production consumes at least one character, 0 for end-of-input and invalid
tokens (an invalid token produced by a failed numeric scan consumes
nothing). -/
def consW : TokType → ℕ
  | TokType.t_eof => 0
  | TokType.t_invalid => 0
  | _ => 1

/-- The termination measure of a scanner state: remaining characters plus the
weight of the current token. -/
def mS (S : Scanner) : ℕ := S.rest.length + consW S.cur.type

theorem skip_loop_len (b : Bool) (l : List Char) (p : ℕ) :
    (skip_loop b l p).1.length ≤ l.length := by
  induction l generalizing b p with
  | nil => cases b <;> simp [skip_loop]
  | cons c r ih =>
    cases b
    · simp only [skip_loop]
      split_ifs with h1 h2
      · exact le_trans (ih false (p + 1)) (by simp)
      · exact le_trans (ih true (p + 1)) (by simp)
      · simp
    · simp only [skip_loop]
      split_ifs with h1
      · exact le_trans (ih false (p + 1)) (by simp)
      · exact le_trans (ih true (p + 1)) (by simp)

theorem take_digits_len (l : List Char) :
    (take_digits l).1.length + (take_digits l).2.length = l.length := by
  induction l with
  | nil => simp [take_digits]
  | cons c r ih =>
    simp only [take_digits]
    split_ifs with h
    · simpa using by omega
    · simp

theorem scan_mantissa_len {l : List Char} {d1 : List Char} {hd : Bool}
    {d2 r : List Char} (h : scan_mantissa l = some (d1, hd, d2, r)) :
    r.length < l.length := by
  have h1 := take_digits_len l
  revert h
  simp only [scan_mantissa]
  split
  case _ r2 heq =>
    have h2 := take_digits_len r2
    have heqlen : (take_digits l).2.length = r2.length + 1 := by
      rw [heq]; simp
    intro h
    split_ifs at h with hguard
    all_goals first
      | exact Option.noConfusion h
      | (simp only [Option.some.injEq, Prod.mk.injEq] at h
         obtain ⟨-, -, -, h4⟩ := h
         subst h4
         omega)
  case _ heq =>
    intro h
    split_ifs at h with hguard
    all_goals first
      | exact Option.noConfusion h
      | (simp only [Option.some.injEq, Prod.mk.injEq] at h
         obtain ⟨-, -, -, h4⟩ := h
         subst h4
         have hpos : 0 < (take_digits l).1.length :=
           List.length_pos.2 (by simpa using hguard)
         omega)

theorem scan_exponent_len (l : List Char) : (scan_exponent l).2.2.length ≤ l.length := by
  rcases l with _ | ⟨c, rest⟩
  · simp [scan_exponent]
  · rcases rest with _ | ⟨s, rest2⟩
    · simp only [scan_exponent]
      split_ifs <;> simp
    · have h2 := take_digits_len rest2
      have h0 := take_digits_len (s :: rest2)
      simp only [scan_exponent]
      split_ifs <;>
        simp only [List.length_cons] at h0 h2 ⊢ <;>
        omega

theorem scan_number_num_len {l : List Char} {p : ℕ}
    (h : (scan_number l p).1.type = TokType.t_num) :
    (scan_number l p).2.1.length < l.length := by
  revert h
  simp only [scan_number]
  split
  case _ heq => intro h; cases h
  case _ d1 hd d2 r1 heq =>
    have hr1 := scan_mantissa_len heq
    have he := scan_exponent_len r1
    split_ifs <;> intro h <;> simp only [] <;> omega

theorem scan_number_invalid {l : List Char} {p : ℕ}
    (h : (scan_number l p).1.type = TokType.t_invalid) :
    (scan_number l p).2.1 = l ∧ (scan_number l p).2.2 = p := by
  revert h
  simp only [scan_number]
  split
  case _ heq => intro _; exact ⟨rfl, rfl⟩
  case _ d1 hd d2 r1 heq => split_ifs <;> intro h <;> cases h

theorem scan_number_types (l : List Char) (p : ℕ) :
    (scan_number l p).1.type = TokType.t_num ∨
      (scan_number l p).1.type = TokType.t_invalid := by
  simp only [scan_number]
  split
  · exact Or.inr rfl
  · split_ifs <;> exact Or.inl rfl

theorem next_token_len (l : List Char) (p : ℕ) :
    (next_token l p).2.1.length + consW (next_token l p).1.type ≤ l.length := by
  have hs := skip_loop_len false l p
  simp only [next_token, skip_ws_and_comments]
  split
  case _ heq => simp [make_simple, consW]
  case _ c r heq =>
    rw [heq] at hs
    simp only [List.length_cons] at hs
    rw [heq]
    split_ifs with h1 h2 h3 h4 h5 h6 h7 h8
    · rcases scan_number_types (c :: r) (skip_loop false l p).2 with ht | ht
      · have hlen := scan_number_num_len ht
        rw [ht]
        simp only [List.length_cons] at hlen
        simp only [consW]
        omega
      · have hinv := (scan_number_invalid ht).1
        rw [ht, hinv]
        simp only [consW, List.length_cons]
        omega
    · simp only [make_simple, consW]; omega
    · simp only [make_simple, consW]; omega
    · simp only [make_simple, consW]; omega
    · simp only [make_simple, consW]; omega
    · simp only [make_simple, consW]; omega
    · simp only [make_simple, consW, List.length_tail]
      omega
    · simp only [make_simple, consW]; omega
    · simp only [make_simple, consW]; omega

theorem advance_err (S : Scanner) : (advance S).err_pos = S.err_pos := rfl

theorem advance_rest (S : Scanner) : (advance S).rest = (next_token S.rest S.pos).2.1 := rfl

theorem advance_pos (S : Scanner) : (advance S).pos = (next_token S.rest S.pos).2.2 := rfl

theorem advance_cur (S : Scanner) : (advance S).cur = (next_token S.rest S.pos).1 := rfl

theorem advance_m (S : Scanner) : mS (advance S) ≤ S.rest.length := by
  have h := next_token_len S.rest S.pos
  simp only [mS, advance_rest, advance_cur]
  exact h

theorem advance_m_le (S : Scanner) : mS (advance S) ≤ mS S :=
  le_trans (advance_m S) (by simp [mS])

theorem advance_m_lt {S : Scanner} (h : consW S.cur.type = 1) :
    mS (advance S) < mS S := by
  have h2 := advance_m S
  simp only [mS] at h2 ⊢
  rw [h]
  omega

theorem set_error_rest (S : Scanner) (p : ℕ) : (set_error S p).rest = S.rest := by
  simp only [set_error]; split <;> rfl

theorem set_error_cur (S : Scanner) (p : ℕ) : (set_error S p).cur = S.cur := by
  simp only [set_error]; split <;> rfl

theorem set_error_pos (S : Scanner) (p : ℕ) : (set_error S p).pos = S.pos := by
  simp only [set_error]; split <;> rfl

theorem set_error_m (S : Scanner) (p : ℕ) : mS (set_error S p) = mS S := by
  simp [mS, set_error_rest, set_error_cur]

theorem set_error_of_ne {S : Scanner} (h : S.err_pos ≠ 0) (p : ℕ) :
    set_error S p = S := by
  simp [set_error, h]

/-!
First error wins: once `err_pos` is nonzero, no parsing function changes it.
The lexer never touches `err_pos` at all (`advance_err`), `set_error` and
`v_div` are guarded, and the statement below extends this to every parsing
function by induction on the fuel.
-/

theorem v_div_err_ne {a b : Value} {e sp : ℕ} (he : e ≠ 0) : (v_div a b e sp).2 = e := by
  simp only [v_div]
  split_ifs <;> simp [he]

theorem parse_err_all : ∀ f : ℕ,
    (∀ S v S1, parse_expr f S = some (v, S1) → S.err_pos ≠ 0 → S1.err_pos = S.err_pos) ∧
    (∀ w S v S1, parse_expr_loop f w S = some (v, S1) → S.err_pos ≠ 0 → S1.err_pos = S.err_pos) ∧
    (∀ S v S1, parse_term f S = some (v, S1) → S.err_pos ≠ 0 → S1.err_pos = S.err_pos) ∧
    (∀ w S v S1, parse_term_loop f w S = some (v, S1) → S.err_pos ≠ 0 → S1.err_pos = S.err_pos) ∧
    (∀ S v S1, parse_power f S = some (v, S1) → S.err_pos ≠ 0 → S1.err_pos = S.err_pos) ∧
    (∀ S v S1, parse_unary f S = some (v, S1) → S.err_pos ≠ 0 → S1.err_pos = S.err_pos) ∧
    (∀ S v S1, parse_primary f S = some (v, S1) → S.err_pos ≠ 0 → S1.err_pos = S.err_pos) := by
  intro f
  induction f with
  | zero =>
    refine ⟨?_, ?_, ?_, ?_, ?_, ?_, ?_⟩
    · intro S v S1 h; rw [parse_expr] at h; exact Option.noConfusion h
    · intro w S v S1 h; rw [parse_expr_loop] at h; exact Option.noConfusion h
    · intro S v S1 h; rw [parse_term] at h; exact Option.noConfusion h
    · intro w S v S1 h; rw [parse_term_loop] at h; exact Option.noConfusion h
    · intro S v S1 h; rw [parse_power] at h; exact Option.noConfusion h
    · intro S v S1 h; rw [parse_unary] at h; exact Option.noConfusion h
    · intro S v S1 h; rw [parse_primary] at h; exact Option.noConfusion h
  | succ f ih =>
    obtain ⟨ihE, ihEL, ihT, ihTL, ihP, ihU, ihPr⟩ := ih
    refine ⟨?_, ?_, ?_, ?_, ?_, ?_, ?_⟩
    · -- parse_expr
      intro S v S1 h he
      cases ht : parse_term f S with
      | none => simp only [parse_expr, ht] at h; exact Option.noConfusion h
      | some p =>
        obtain ⟨v1, T1⟩ := p
        simp only [parse_expr, ht] at h
        have h1 : T1.err_pos = S.err_pos := ihT S v1 T1 ht he
        have h2 := ihEL v1 T1 v S1 h (by rw [h1]; exact he)
        rw [h2, h1]
    · -- parse_expr_loop
      intro w S v S1 h he
      simp only [parse_expr_loop] at h
      split_ifs at h with hc hop
      · cases ht : parse_term f (advance S) with
        | none => simp only [ht] at h; exact Option.noConfusion h
        | some p =>
          obtain ⟨r, T1⟩ := p
          simp only [ht] at h
          have hT : T1.err_pos = S.err_pos := by
            have := ihT (advance S) r T1 ht (by rw [advance_err]; exact he)
            rw [this, advance_err]
          rw [if_pos (by rw [hT]; exact he)] at h
          simp only [Option.some.injEq, Prod.mk.injEq] at h
          rw [← h.2]
          exact hT
      · cases ht : parse_term f (advance S) with
        | none => simp only [ht] at h; exact Option.noConfusion h
        | some p =>
          obtain ⟨r, T1⟩ := p
          simp only [ht] at h
          have hT : T1.err_pos = S.err_pos := by
            have := ihT (advance S) r T1 ht (by rw [advance_err]; exact he)
            rw [this, advance_err]
          rw [if_pos (by rw [hT]; exact he)] at h
          simp only [Option.some.injEq, Prod.mk.injEq] at h
          rw [← h.2]
          exact hT
      · simp only [Option.some.injEq, Prod.mk.injEq] at h
        rw [← h.2]
    · -- parse_term
      intro S v S1 h he
      cases ht : parse_power f S with
      | none => simp only [parse_term, ht] at h; exact Option.noConfusion h
      | some p =>
        obtain ⟨v1, T1⟩ := p
        simp only [parse_term, ht] at h
        have h1 : T1.err_pos = S.err_pos := ihP S v1 T1 ht he
        have h2 := ihTL v1 T1 v S1 h (by rw [h1]; exact he)
        rw [h2, h1]
    · -- parse_term_loop
      intro w S v S1 h he
      simp only [parse_term_loop] at h
      split_ifs at h with hc hop
      · cases ht : parse_power f (advance S) with
        | none => simp only [ht] at h; exact Option.noConfusion h
        | some p =>
          obtain ⟨r, T1⟩ := p
          simp only [ht] at h
          have hT : T1.err_pos = S.err_pos := by
            have := ihP (advance S) r T1 ht (by rw [advance_err]; exact he)
            rw [this, advance_err]
          rw [if_pos (by rw [hT]; exact he)] at h
          simp only [Option.some.injEq, Prod.mk.injEq] at h
          rw [← h.2]
          exact hT
      · cases ht : parse_power f (advance S) with
        | none => simp only [ht] at h; exact Option.noConfusion h
        | some p =>
          obtain ⟨r, T1⟩ := p
          simp only [ht] at h
          have hT : T1.err_pos = S.err_pos := by
            have := ihP (advance S) r T1 ht (by rw [advance_err]; exact he)
            rw [this, advance_err]
          rw [if_pos (by rw [hT]; exact he)] at h
          simp only [Option.some.injEq, Prod.mk.injEq] at h
          rw [← h.2]
          exact hT
      · simp only [Option.some.injEq, Prod.mk.injEq] at h
        rw [← h.2]
    · -- parse_power
      intro S v S1 h he
      cases hu : parse_unary f S with
      | none => simp only [parse_power, hu] at h; exact Option.noConfusion h
      | some p =>
        obtain ⟨l, T1⟩ := p
        simp only [parse_power, hu] at h
        have hT : T1.err_pos = S.err_pos := ihU S l T1 hu he
        split_ifs at h with hp
        · cases hpw : parse_power f (advance T1) with
          | none => simp only [hpw] at h; exact Option.noConfusion h
          | some q =>
            obtain ⟨r, T2⟩ := q
            simp only [hpw] at h
            have hT2 : T2.err_pos = T1.err_pos := by
              have := ihP (advance T1) r T2 hpw (by rw [advance_err, hT]; exact he)
              rw [this, advance_err]
            simp only [Option.some.injEq, Prod.mk.injEq] at h
            rw [← h.2, hT2, hT]
        · simp only [Option.some.injEq, Prod.mk.injEq] at h
          rw [← h.2, hT]
    · -- parse_unary
      intro S v S1 h he
      simp only [parse_unary] at h
      split_ifs at h with h1 h2
      · have := ihU (advance S) v S1 h (by rw [advance_err]; exact he)
        rw [this, advance_err]
      · cases hu : parse_unary f (advance S) with
        | none => simp only [hu] at h; exact Option.noConfusion h
        | some p =>
          obtain ⟨v1, T1⟩ := p
          simp only [hu] at h
          have hT : T1.err_pos = S.err_pos := by
            have := ihU (advance S) v1 T1 hu (by rw [advance_err]; exact he)
            rw [this, advance_err]
          simp only [Option.some.injEq, Prod.mk.injEq] at h
          rw [← h.2, hT]
      · exact ihPr S v S1 h he
    · -- parse_primary
      intro S v S1 h he
      simp only [parse_primary] at h
      split_ifs at h with h1 hf h2
      · simp only [Option.some.injEq, Prod.mk.injEq] at h
        rw [← h.2, advance_err]
      · simp only [Option.some.injEq, Prod.mk.injEq] at h
        rw [← h.2, advance_err]
      · cases hx : parse_expr f (advance S) with
        | none => simp only [hx] at h; exact Option.noConfusion h
        | some p =>
          obtain ⟨ins, T1⟩ := p
          simp only [hx] at h
          have hT : T1.err_pos = S.err_pos := by
            have := ihE (advance S) ins T1 hx (by rw [advance_err]; exact he)
            rw [this, advance_err]
          rw [if_pos (by rw [hT]; exact he)] at h
          simp only [Option.some.injEq, Prod.mk.injEq] at h
          rw [← h.2]
          exact hT
      · simp only [Option.some.injEq, Prod.mk.injEq] at h
        rw [← h.2, advance_err, set_error_of_ne he]

/-!
Parsing only ever advances the scanner: the measure `mS` never increases, and
a result obtained with some fuel is stable under more fuel.
-/

theorem parse_m_all : ∀ f : ℕ,
    (∀ S v S1, parse_expr f S = some (v, S1) → mS S1 ≤ mS S) ∧
    (∀ w S v S1, parse_expr_loop f w S = some (v, S1) → mS S1 ≤ mS S) ∧
    (∀ S v S1, parse_term f S = some (v, S1) → mS S1 ≤ mS S) ∧
    (∀ w S v S1, parse_term_loop f w S = some (v, S1) → mS S1 ≤ mS S) ∧
    (∀ S v S1, parse_power f S = some (v, S1) → mS S1 ≤ mS S) ∧
    (∀ S v S1, parse_unary f S = some (v, S1) → mS S1 ≤ mS S) ∧
    (∀ S v S1, parse_primary f S = some (v, S1) → mS S1 ≤ mS S) := by
  intro f
  induction f with
  | zero =>
    refine ⟨?_, ?_, ?_, ?_, ?_, ?_, ?_⟩
    · intro S v S1 h; rw [parse_expr] at h; exact Option.noConfusion h
    · intro w S v S1 h; rw [parse_expr_loop] at h; exact Option.noConfusion h
    · intro S v S1 h; rw [parse_term] at h; exact Option.noConfusion h
    · intro w S v S1 h; rw [parse_term_loop] at h; exact Option.noConfusion h
    · intro S v S1 h; rw [parse_power] at h; exact Option.noConfusion h
    · intro S v S1 h; rw [parse_unary] at h; exact Option.noConfusion h
    · intro S v S1 h; rw [parse_primary] at h; exact Option.noConfusion h
  | succ f ih =>
    obtain ⟨ihE, ihEL, ihT, ihTL, ihP, ihU, ihPr⟩ := ih
    refine ⟨?_, ?_, ?_, ?_, ?_, ?_, ?_⟩
    · -- parse_expr
      intro S v S1 h
      cases ht : parse_term f S with
      | none => simp only [parse_expr, ht] at h; exact Option.noConfusion h
      | some p =>
        obtain ⟨v1, T1⟩ := p
        simp only [parse_expr, ht] at h
        exact le_trans (ihEL v1 T1 v S1 h) (ihT S v1 T1 ht)
    · -- parse_expr_loop
      intro w S v S1 h
      simp only [parse_expr_loop] at h
      split_ifs at h with hc hop <;>
        [skip; skip;
          (simp only [Option.some.injEq, Prod.mk.injEq] at h; rw [← h.2])] <;>
      · cases ht : parse_term f (advance S) with
        | none => simp only [ht] at h; exact Option.noConfusion h
        | some p =>
          obtain ⟨r, T1⟩ := p
          simp only [ht] at h
          have hT : mS T1 ≤ mS S :=
            le_trans (ihT (advance S) r T1 ht) (advance_m_le S)
          split_ifs at h with herr
          · simp only [Option.some.injEq, Prod.mk.injEq] at h
            rw [← h.2]; exact hT
          · exact le_trans (ihEL _ T1 v S1 h) hT
    · -- parse_term
      intro S v S1 h
      cases ht : parse_power f S with
      | none => simp only [parse_term, ht] at h; exact Option.noConfusion h
      | some p =>
        obtain ⟨v1, T1⟩ := p
        simp only [parse_term, ht] at h
        exact le_trans (ihTL v1 T1 v S1 h) (ihP S v1 T1 ht)
    · -- parse_term_loop
      intro w S v S1 h
      simp only [parse_term_loop] at h
      split_ifs at h with hc hop
      · cases ht : parse_power f (advance S) with
        | none => simp only [ht] at h; exact Option.noConfusion h
        | some p =>
          obtain ⟨r, T1⟩ := p
          simp only [ht] at h
          have hT : mS T1 ≤ mS S :=
            le_trans (ihP (advance S) r T1 ht) (advance_m_le S)
          split_ifs at h with herr
          · simp only [Option.some.injEq, Prod.mk.injEq] at h
            rw [← h.2]; exact hT
          · exact le_trans (ihTL _ _ v S1 h) hT
      · cases ht : parse_power f (advance S) with
        | none => simp only [ht] at h; exact Option.noConfusion h
        | some p =>
          obtain ⟨r, T1⟩ := p
          simp only [ht] at h
          have hT : mS T1 ≤ mS S :=
            le_trans (ihP (advance S) r T1 ht) (advance_m_le S)
          split_ifs at h with herr herr2
          · simp only [Option.some.injEq, Prod.mk.injEq] at h
            rw [← h.2]; exact hT
          · simp only [Option.some.injEq, Prod.mk.injEq] at h
            rw [← h.2]; exact hT
          · exact le_trans (ihTL _ _ v S1 h) hT
      · simp only [Option.some.injEq, Prod.mk.injEq] at h
        rw [← h.2]
    · -- parse_power
      intro S v S1 h
      cases hu : parse_unary f S with
      | none => simp only [parse_power, hu] at h; exact Option.noConfusion h
      | some p =>
        obtain ⟨l, T1⟩ := p
        simp only [parse_power, hu] at h
        have hT : mS T1 ≤ mS S := ihU S l T1 hu
        split_ifs at h with hp
        · cases hpw : parse_power f (advance T1) with
          | none => simp only [hpw] at h; exact Option.noConfusion h
          | some q =>
            obtain ⟨r, T2⟩ := q
            simp only [hpw] at h
            simp only [Option.some.injEq, Prod.mk.injEq] at h
            rw [← h.2]
            exact le_trans (le_trans (ihP (advance T1) r T2 hpw) (advance_m_le T1)) hT
        · simp only [Option.some.injEq, Prod.mk.injEq] at h
          rw [← h.2]; exact hT
    · -- parse_unary
      intro S v S1 h
      simp only [parse_unary] at h
      split_ifs at h with h1 h2
      · exact le_trans (ihU (advance S) v S1 h) (advance_m_le S)
      · cases hu : parse_unary f (advance S) with
        | none => simp only [hu] at h; exact Option.noConfusion h
        | some p =>
          obtain ⟨v1, T1⟩ := p
          simp only [hu] at h
          simp only [Option.some.injEq, Prod.mk.injEq] at h
          rw [← h.2]
          exact le_trans (ihU (advance S) v1 T1 hu) (advance_m_le S)
      · exact ihPr S v S1 h
    · -- parse_primary
      intro S v S1 h
      simp only [parse_primary] at h
      split_ifs at h with h1 hf h2
      · simp only [Option.some.injEq, Prod.mk.injEq] at h
        rw [← h.2]; exact advance_m_le S
      · simp only [Option.some.injEq, Prod.mk.injEq] at h
        rw [← h.2]; exact advance_m_le S
      · cases hx : parse_expr f (advance S) with
        | none => simp only [hx] at h; exact Option.noConfusion h
        | some p =>
          obtain ⟨ins, T1⟩ := p
          simp only [hx] at h
          have hT : mS T1 ≤ mS S :=
            le_trans (ihE (advance S) ins T1 hx) (advance_m_le S)
          split_ifs at h with herr hrp heof
          · simp only [Option.some.injEq, Prod.mk.injEq] at h
            rw [← h.2]; exact hT
          · simp only [Option.some.injEq, Prod.mk.injEq] at h
            rw [← h.2, set_error_m]; exact hT
          · simp only [Option.some.injEq, Prod.mk.injEq] at h
            rw [← h.2, set_error_m]; exact hT
          · simp only [Option.some.injEq, Prod.mk.injEq] at h
            rw [← h.2]
            exact le_trans (le_trans (advance_m_le T1) le_rfl) hT
      · simp only [Option.some.injEq, Prod.mk.injEq] at h
        rw [← h.2]
        calc mS (advance (set_error S S.cur.start_pos))
            ≤ mS (set_error S S.cur.start_pos) := advance_m_le _
          _ = mS S := set_error_m S _

theorem parse_mono_all : ∀ f : ℕ,
    (∀ S r, parse_expr f S = some r → parse_expr (f + 1) S = some r) ∧
    (∀ w S r, parse_expr_loop f w S = some r → parse_expr_loop (f + 1) w S = some r) ∧
    (∀ S r, parse_term f S = some r → parse_term (f + 1) S = some r) ∧
    (∀ w S r, parse_term_loop f w S = some r → parse_term_loop (f + 1) w S = some r) ∧
    (∀ S r, parse_power f S = some r → parse_power (f + 1) S = some r) ∧
    (∀ S r, parse_unary f S = some r → parse_unary (f + 1) S = some r) ∧
    (∀ S r, parse_primary f S = some r → parse_primary (f + 1) S = some r) := by
  intro f
  induction f with
  | zero =>
    refine ⟨?_, ?_, ?_, ?_, ?_, ?_, ?_⟩
    · intro S r h; rw [parse_expr] at h; exact Option.noConfusion h
    · intro w S r h; rw [parse_expr_loop] at h; exact Option.noConfusion h
    · intro S r h; rw [parse_term] at h; exact Option.noConfusion h
    · intro w S r h; rw [parse_term_loop] at h; exact Option.noConfusion h
    · intro S r h; rw [parse_power] at h; exact Option.noConfusion h
    · intro S r h; rw [parse_unary] at h; exact Option.noConfusion h
    · intro S r h; rw [parse_primary] at h; exact Option.noConfusion h
  | succ f ih =>
    obtain ⟨ihE, ihEL, ihT, ihTL, ihP, ihU, ihPr⟩ := ih
    refine ⟨?_, ?_, ?_, ?_, ?_, ?_, ?_⟩
    · -- parse_expr
      intro S r h
      cases ht : parse_term f S with
      | none => simp only [parse_expr, ht] at h; exact Option.noConfusion h
      | some p =>
        obtain ⟨v1, T1⟩ := p
        simp only [parse_expr, ht] at h
        simp only [parse_expr, ihT S (v1, T1) ht]
        exact ihEL v1 T1 r h
    · -- parse_expr_loop
      intro w S r h
      rw [parse_expr_loop] at h
      rw [parse_expr_loop]
      split_ifs at h ⊢ with hc
      · cases ht : parse_term f (advance S) with
        | none => simp only [ht] at h; exact Option.noConfusion h
        | some p =>
          obtain ⟨r1, T1⟩ := p
          simp only [ht] at h
          simp only [ihT (advance S) (r1, T1) ht]
          split_ifs at h ⊢ with herr hopp
          · exact h
          · exact ihEL _ T1 r h
          · exact ihEL _ T1 r h
      · exact h
    · -- parse_term
      intro S r h
      cases ht : parse_power f S with
      | none => simp only [parse_term, ht] at h; exact Option.noConfusion h
      | some p =>
        obtain ⟨v1, T1⟩ := p
        simp only [parse_term, ht] at h
        simp only [parse_term, ihP S (v1, T1) ht]
        exact ihTL v1 T1 r h
    · -- parse_term_loop
      intro w S r h
      rw [parse_term_loop] at h
      rw [parse_term_loop]
      split_ifs at h ⊢ with hc
      · cases ht : parse_power f (advance S) with
        | none => simp only [ht] at h; exact Option.noConfusion h
        | some p =>
          obtain ⟨r1, T1⟩ := p
          simp only [ht] at h
          simp only [ihP (advance S) (r1, T1) ht]
          split_ifs at h ⊢ with herr hopp herr2
          · exact h
          · exact ihTL _ _ r h
          · exact h
          · exact ihTL _ _ r h
      · exact h
    · -- parse_power
      intro S r h
      cases hu : parse_unary f S with
      | none => simp only [parse_power, hu] at h; exact Option.noConfusion h
      | some p =>
        obtain ⟨l, T1⟩ := p
        simp only [parse_power, hu] at h
        rw [parse_power]
        simp only [ihU S (l, T1) hu]
        split_ifs at h ⊢ with hp
        · cases hpw : parse_power f (advance T1) with
          | none => simp only [hpw] at h; exact Option.noConfusion h
          | some q =>
            simp only [hpw] at h
            simp only [ihP (advance T1) q hpw]
            exact h
        · exact h
    · -- parse_unary
      intro S r h
      rw [parse_unary] at h
      rw [parse_unary]
      split_ifs at h ⊢ with h1 h2
      · exact ihU (advance S) r h
      · cases hu : parse_unary f (advance S) with
        | none => simp only [hu] at h; exact Option.noConfusion h
        | some p =>
          simp only [hu] at h
          simp only [ihU (advance S) p hu]
          exact h
      · exact ihPr S r h
    · -- parse_primary
      intro S r h
      rw [parse_primary] at h
      rw [parse_primary]
      split_ifs at h ⊢ with h1 hf h2
      · exact h
      · exact h
      · cases hx : parse_expr f (advance S) with
        | none => simp only [hx] at h; exact Option.noConfusion h
        | some p =>
          simp only [hx] at h
          simp only [ihE (advance S) p hx]
          exact h
      · exact h

theorem parse_expr_mono {f g : ℕ} (hfg : f ≤ g) {S : Scanner} {r : Value × Scanner}
    (h : parse_expr f S = some r) : parse_expr g S = some r := by
  obtain ⟨d, rfl⟩ := Nat.exists_eq_add_of_le hfg
  clear hfg
  induction d with
  | zero => exact h
  | succ d ih => exact (parse_mono_all (f + d)).1 _ _ ih

theorem parse_expr_loop_mono {f g : ℕ} (hfg : f ≤ g) {w : Value} {S : Scanner}
    {r : Value × Scanner} (h : parse_expr_loop f w S = some r) :
    parse_expr_loop g w S = some r := by
  obtain ⟨d, rfl⟩ := Nat.exists_eq_add_of_le hfg
  clear hfg
  induction d with
  | zero => exact h
  | succ d ih => exact (parse_mono_all (f + d)).2.1 _ _ _ ih

theorem parse_term_mono {f g : ℕ} (hfg : f ≤ g) {S : Scanner} {r : Value × Scanner}
    (h : parse_term f S = some r) : parse_term g S = some r := by
  obtain ⟨d, rfl⟩ := Nat.exists_eq_add_of_le hfg
  clear hfg
  induction d with
  | zero => exact h
  | succ d ih => exact (parse_mono_all (f + d)).2.2.1 _ _ ih

theorem parse_term_loop_mono {f g : ℕ} (hfg : f ≤ g) {w : Value} {S : Scanner}
    {r : Value × Scanner} (h : parse_term_loop f w S = some r) :
    parse_term_loop g w S = some r := by
  obtain ⟨d, rfl⟩ := Nat.exists_eq_add_of_le hfg
  clear hfg
  induction d with
  | zero => exact h
  | succ d ih => exact (parse_mono_all (f + d)).2.2.2.1 _ _ _ ih

theorem parse_power_mono {f g : ℕ} (hfg : f ≤ g) {S : Scanner} {r : Value × Scanner}
    (h : parse_power f S = some r) : parse_power g S = some r := by
  obtain ⟨d, rfl⟩ := Nat.exists_eq_add_of_le hfg
  clear hfg
  induction d with
  | zero => exact h
  | succ d ih => exact (parse_mono_all (f + d)).2.2.2.2.1 _ _ ih

theorem parse_unary_mono {f g : ℕ} (hfg : f ≤ g) {S : Scanner} {r : Value × Scanner}
    (h : parse_unary f S = some r) : parse_unary g S = some r := by
  obtain ⟨d, rfl⟩ := Nat.exists_eq_add_of_le hfg
  clear hfg
  induction d with
  | zero => exact h
  | succ d ih => exact (parse_mono_all (f + d)).2.2.2.2.2.1 _ _ ih

theorem parse_primary_mono {f g : ℕ} (hfg : f ≤ g) {S : Scanner} {r : Value × Scanner}
    (h : parse_primary f S = some r) : parse_primary g S = some r := by
  obtain ⟨d, rfl⟩ := Nat.exists_eq_add_of_le hfg
  clear hfg
  induction d with
  | zero => exact h
  | succ d ih => exact (parse_mono_all (f + d)).2.2.2.2.2.2 _ _ ih

theorem mS_mk (a : List Char) (b c : ℕ) (d : Token) :
    mS ⟨a, b, c, d⟩ = a.length + consW d.type := rfl

/-!
Fuel sufficiency: with fuel exceeding eight times the measure (plus a small
rank offset distinguishing the mutually recursive rules), no parsing function
ever runs out of fuel.  This is the termination argument of the C program:
every recursive call either strictly consumes input or moves to a rule of
smaller rank.
-/

theorem parse_suff_all : ∀ f : ℕ,
    (∀ S, 8 * mS S + 7 < f → (parse_expr f S).isSome = true) ∧
    (∀ w S, 8 * mS S + 6 < f → (parse_expr_loop f w S).isSome = true) ∧
    (∀ S, 8 * mS S + 5 < f → (parse_term f S).isSome = true) ∧
    (∀ w S, 8 * mS S + 4 < f → (parse_term_loop f w S).isSome = true) ∧
    (∀ S, 8 * mS S + 3 < f → (parse_power f S).isSome = true) ∧
    (∀ S, 8 * mS S + 2 < f → (parse_unary f S).isSome = true) ∧
    (∀ S, 8 * mS S + 1 < f → (parse_primary f S).isSome = true) := by
  intro f
  induction f with
  | zero =>
    refine ⟨?_, ?_, ?_, ?_, ?_, ?_, ?_⟩ <;> intros <;> exfalso <;> omega
  | succ f ih =>
    obtain ⟨ihE, ihEL, ihT, ihTL, ihP, ihU, ihPr⟩ := ih
    have hm := parse_m_all f
    refine ⟨?_, ?_, ?_, ?_, ?_, ?_, ?_⟩
    · -- parse_expr
      intro S hf
      cases ht : parse_term f S with
      | none =>
        have := ihT S (by omega)
        rw [ht] at this
        exact absurd this (by simp)
      | some p =>
        obtain ⟨v1, T1⟩ := p
        have h1 : mS T1 ≤ mS S := hm.2.2.1 S v1 T1 ht
        simp only [parse_expr, ht]
        exact ihEL v1 T1 (by omega)
    · -- parse_expr_loop
      intro w S hf
      rw [parse_expr_loop]
      split_ifs with hc
      · have hw : consW S.cur.type = 1 := by
          rcases hc with h | h <;> rw [h] <;> rfl
        have hadv : mS (advance S) < mS S := advance_m_lt hw
        cases ht : parse_term f (advance S) with
        | none =>
          have := ihT (advance S) (by omega)
          rw [ht] at this
          exact absurd this (by simp)
        | some p =>
          obtain ⟨r1, T1⟩ := p
          have h1 : mS T1 ≤ mS (advance S) := hm.2.2.1 _ r1 T1 ht
          simp only [ht]
          split_ifs with herr hopp
          · simp
          · exact ihEL _ T1 (by omega)
          · exact ihEL _ T1 (by omega)
      · simp
    · -- parse_term
      intro S hf
      cases ht : parse_power f S with
      | none =>
        have := ihP S (by omega)
        rw [ht] at this
        exact absurd this (by simp)
      | some p =>
        obtain ⟨v1, T1⟩ := p
        have h1 : mS T1 ≤ mS S := hm.2.2.2.2.1 S v1 T1 ht
        simp only [parse_term, ht]
        exact ihTL v1 T1 (by omega)
    · -- parse_term_loop
      intro w S hf
      rw [parse_term_loop]
      split_ifs with hc
      · have hw : consW S.cur.type = 1 := by
          rcases hc with h | h <;> rw [h] <;> rfl
        have hadv : mS (advance S) < mS S := advance_m_lt hw
        cases ht : parse_power f (advance S) with
        | none =>
          have := ihP (advance S) (by omega)
          rw [ht] at this
          exact absurd this (by simp)
        | some p =>
          obtain ⟨r1, T1⟩ := p
          have h1 : mS T1 ≤ mS (advance S) := hm.2.2.2.2.1 _ r1 T1 ht
          simp only [ht]
          have h2 : mS T1 = T1.rest.length + consW T1.cur.type := rfl
          split_ifs with herr hopp herr2
          · simp
          · refine ihTL _ _ ?_
            rw [mS_mk]
            omega
          · simp
          · refine ihTL _ _ ?_
            rw [mS_mk]
            omega
      · simp
    · -- parse_power
      intro S hf
      cases hu : parse_unary f S with
      | none =>
        have := ihU S (by omega)
        rw [hu] at this
        exact absurd this (by simp)
      | some p =>
        obtain ⟨l, T1⟩ := p
        have h1 : mS T1 ≤ mS S := hm.2.2.2.2.2.1 S l T1 hu
        simp only [parse_power, hu]
        split_ifs with hp
        · have hw : consW T1.cur.type = 1 := by rw [hp]; rfl
          have hadv : mS (advance T1) < mS T1 := advance_m_lt hw
          cases hpw : parse_power f (advance T1) with
          | none =>
            have := ihP (advance T1) (by omega)
            rw [hpw] at this
            exact absurd this (by simp)
          | some q => simp [hpw]
        · simp
    · -- parse_unary
      intro S hf
      rw [parse_unary]
      split_ifs with h1 h2
      · have hw : consW S.cur.type = 1 := by rw [h1]; rfl
        have hadv : mS (advance S) < mS S := advance_m_lt hw
        exact ihU (advance S) (by omega)
      · have hw : consW S.cur.type = 1 := by rw [h2]; rfl
        have hadv : mS (advance S) < mS S := advance_m_lt hw
        cases hu : parse_unary f (advance S) with
        | none =>
          have := ihU (advance S) (by omega)
          rw [hu] at this
          exact absurd this (by simp)
        | some p => simp [hu]
      · exact ihPr S (by omega)
    · -- parse_primary
      intro S hf
      rw [parse_primary]
      split_ifs with h1 hfl h2
      · simp
      · simp
      · have hw : consW S.cur.type = 1 := by rw [h2]; rfl
        have hadv : mS (advance S) < mS S := advance_m_lt hw
        cases hx : parse_expr f (advance S) with
        | none =>
          have := ihE (advance S) (by omega)
          rw [hx] at this
          exact absurd this (by simp)
        | some p =>
          obtain ⟨ins, T1⟩ := p
          simp only [hx]
          split_ifs <;> simp
      · simp

/-- The fuel used by `eval_buffer` is always sufficient: the fused
parse/evaluate pass never runs out of fuel on any input buffer. -/
theorem eval_bufferF_suff (buf : List Char) :
    (eval_bufferF (8 * buf.length + 16) buf).isSome = true := by
  have hadv : mS (advance (init_scanner buf)) ≤ buf.length := advance_m (init_scanner buf)
  have h := (parse_suff_all (8 * buf.length + 16)).1 (advance (init_scanner buf)) (by omega)
  rw [eval_bufferF]
  cases hx : parse_expr (8 * buf.length + 16) (advance (init_scanner buf)) with
  | none => rw [hx] at h; exact absurd h (by simp)
  | some p =>
    obtain ⟨v, S2⟩ := p
    simp only [hx]
    split_ifs <;> simp

/-!
Specification side, for the refinement property: the grammar of spec section
4.3 as a derivation relation over the token stream, and "standard infix
evaluation under the stated integer/float promotion rules" as evaluation of
the derived syntax tree with the arithmetic of spec section 4.1.
-/

/-- Syntax trees of the spec grammar: literals, unary negation and the five
binary operators.  A unary plus derives the same tree as its operand. -/
inductive Expr where
  | num (v : Value)
  | neg (e : Expr)
  | add (a b : Expr)
  | sub (a b : Expr)
  | mul (a b : Expr)
  | div (a b : Expr)
  | pow (a b : Expr)

/-- Spec 4.1 `add`: integer result iff both operands are integers (with the
native wraparound the spec accepts); otherwise promote both to floating-point
and combine. -/
def spec_add (a b : Value) : Value :=
  match a, b with
  | Value.int x, Value.int y => make_int (wrap64 (x + y))
  | _, _ => make_double (qadd (toDouble a) (toDouble b))

/-- Spec 4.1 `subtract`. -/
def spec_sub (a b : Value) : Value :=
  match a, b with
  | Value.int x, Value.int y => make_int (wrap64 (x - y))
  | _, _ => make_double (qsub (toDouble a) (toDouble b))

/-- Spec 4.1 `multiply`. -/
def spec_mul (a b : Value) : Value :=
  match a, b with
  | Value.int x, Value.int y => make_int (wrap64 (x * y))
  | _, _ => make_double (qmul (toDouble a) (toDouble b))

/-- Spec 4.1 `divide`, on the no-zero-divisor domain: "result is always
floating-point, computed as a/b promoted to double precision regardless of
operand kinds". -/
def spec_div (a b : Value) : Value :=
  make_double (qdiv (toDouble a) (toDouble b))

/-- Spec 4.1 `power`: "always returns a floating-point result computed via
the standard real-exponentiation function". -/
def spec_pow (base exp : Value) : Value :=
  make_double (powQ (toDouble base) (toDouble exp))

/-- Spec 4.1 `negate`: preserves the kind of the operand. -/
def spec_negate (v : Value) : Value :=
  match v with
  | Value.int i => make_int (wrap64 (-i))
  | Value.float d => make_double (-d)

theorem spec_add_eq (a b : Value) : spec_add a b = v_add a b := rfl

theorem spec_sub_eq (a b : Value) : spec_sub a b = v_sub a b := rfl

theorem spec_mul_eq (a b : Value) : spec_mul a b = v_mul a b := rfl

theorem spec_pow_eq (a b : Value) : spec_pow a b = v_pow a b := rfl

theorem spec_negate_eq (v : Value) : spec_negate v = negate v := rfl

/-- Standard infix evaluation of a syntax tree under the promotion rules of
spec 4.1 (partial only at division by zero, which `NoDivZero` excludes). -/
def spec_eval : Expr → Value
  | Expr.num v => v
  | Expr.neg e => spec_negate (spec_eval e)
  | Expr.add a b => spec_add (spec_eval a) (spec_eval b)
  | Expr.sub a b => spec_sub (spec_eval a) (spec_eval b)
  | Expr.mul a b => spec_mul (spec_eval a) (spec_eval b)
  | Expr.div a b => spec_div (spec_eval a) (spec_eval b)
  | Expr.pow a b => spec_pow (spec_eval a) (spec_eval b)

/-- No division in the tree has a zero right operand (the spec's "no zero
divisor" condition, spec 8). -/
def NoDivZero : Expr → Prop
  | Expr.num _ => True
  | Expr.neg e => NoDivZero e
  | Expr.add a b => NoDivZero a ∧ NoDivZero b
  | Expr.sub a b => NoDivZero a ∧ NoDivZero b
  | Expr.mul a b => NoDivZero a ∧ NoDivZero b
  | Expr.div a b => NoDivZero a ∧ NoDivZero b ∧ is_zero (spec_eval b) = false
  | Expr.pow a b => NoDivZero a ∧ NoDivZero b

/-- The value carried by a number token. -/
def tokValue (t : Token) : Value :=
  if t.is_float then make_double t.d else make_int t.i

/-- Nonterminals of the spec grammar; the loop nonterminals carry the tree
accumulated so far by the left-associative iteration. -/
inductive Rule where
  | expr | term | pw | unary | primary
  | exprL (acc : Expr)
  | termL (acc : Expr)

/-- The parsing function of calc.c implementing each nonterminal (the loop
nonterminals are entered with the value of the accumulated tree, matching the
iterative accumulation in `parse_expr`/`parse_term`). -/
def runRule : Rule → ℕ → Scanner → Option (Value × Scanner)
  | Rule.expr, f, S => parse_expr f S
  | Rule.exprL acc, f, S => parse_expr_loop f (spec_eval acc) S
  | Rule.term, f, S => parse_term f S
  | Rule.termL acc, f, S => parse_term_loop f (spec_eval acc) S
  | Rule.pw, f, S => parse_power f S
  | Rule.unary, f, S => parse_unary f S
  | Rule.primary, f, S => parse_primary f S

/-- Derivations of the spec grammar (spec 4.3) over the token stream:
`Deriv nt S e S'` means that from parser state `S` the nonterminal `nt`
derives the tree `e`, leaving the parser in state `S'`.  Token succession is
the lexer's own (`advance`), which both the grammar and the code share;
left-associative chains accumulate through the loop nonterminals and `**`
recurses on the right, exactly as the grammar states. -/
inductive Deriv : Rule → Scanner → Expr → Scanner → Prop where
  | expr {S t S1 e S2} :
      Deriv Rule.term S t S1 → Deriv (Rule.exprL t) S1 e S2 →
      Deriv Rule.expr S e S2
  | exprL_done {S acc} :
      S.cur.type ≠ TokType.t_plus → S.cur.type ≠ TokType.t_minus →
      Deriv (Rule.exprL acc) S acc S
  | exprL_plus {S acc r S1 e S2} :
      S.cur.type = TokType.t_plus →
      Deriv Rule.term (advance S) r S1 →
      Deriv (Rule.exprL (Expr.add acc r)) S1 e S2 →
      Deriv (Rule.exprL acc) S e S2
  | exprL_minus {S acc r S1 e S2} :
      S.cur.type = TokType.t_minus →
      Deriv Rule.term (advance S) r S1 →
      Deriv (Rule.exprL (Expr.sub acc r)) S1 e S2 →
      Deriv (Rule.exprL acc) S e S2
  | term {S t S1 e S2} :
      Deriv Rule.pw S t S1 → Deriv (Rule.termL t) S1 e S2 →
      Deriv Rule.term S e S2
  | termL_done {S acc} :
      S.cur.type ≠ TokType.t_star → S.cur.type ≠ TokType.t_slash →
      Deriv (Rule.termL acc) S acc S
  | termL_mul {S acc r S1 e S2} :
      S.cur.type = TokType.t_star →
      Deriv Rule.pw (advance S) r S1 →
      Deriv (Rule.termL (Expr.mul acc r)) S1 e S2 →
      Deriv (Rule.termL acc) S e S2
  | termL_div {S acc r S1 e S2} :
      S.cur.type = TokType.t_slash →
      Deriv Rule.pw (advance S) r S1 →
      Deriv (Rule.termL (Expr.div acc r)) S1 e S2 →
      Deriv (Rule.termL acc) S e S2
  | pw_rec {S a S1 b S2} :
      Deriv Rule.unary S a S1 →
      S1.cur.type = TokType.t_pow →
      Deriv Rule.pw (advance S1) b S2 →
      Deriv Rule.pw S (Expr.pow a b) S2
  | pw_none {S a S1} :
      Deriv Rule.unary S a S1 →
      S1.cur.type ≠ TokType.t_pow →
      Deriv Rule.pw S a S1
  | unary_plus {S e S1} :
      S.cur.type = TokType.t_plus →
      Deriv Rule.unary (advance S) e S1 →
      Deriv Rule.unary S e S1
  | unary_minus {S e S1} :
      S.cur.type = TokType.t_minus →
      Deriv Rule.unary (advance S) e S1 →
      Deriv Rule.unary S (Expr.neg e) S1
  | unary_prim {S e S1} :
      Deriv Rule.primary S e S1 →
      Deriv Rule.unary S e S1
  | primary_num {S} :
      S.cur.type = TokType.t_num →
      Deriv Rule.primary S (Expr.num (tokValue S.cur)) (advance S)
  | primary_paren {S e S1} :
      S.cur.type = TokType.t_lparen →
      Deriv Rule.expr (advance S) e S1 →
      S1.cur.type = TokType.t_rparen →
      Deriv Rule.primary S e (advance S1)

/-- A derivation never changes the error slot: the grammar only moves through
the token stream, and the lexer never touches `err_pos`. -/
theorem deriv_err {nt : Rule} {S : Scanner} {e : Expr} {S2 : Scanner}
    (d : Deriv nt S e S2) : S2.err_pos = S.err_pos := by
  induction d with
  | expr d1 d2 ih1 ih2 => rw [ih2, ih1]
  | exprL_done h1 h2 => rfl
  | exprL_plus hp d1 d2 ih1 ih2 => rw [ih2, ih1, advance_err]
  | exprL_minus hp d1 d2 ih1 ih2 => rw [ih2, ih1, advance_err]
  | term d1 d2 ih1 ih2 => rw [ih2, ih1]
  | termL_done h1 h2 => rfl
  | termL_mul hp d1 d2 ih1 ih2 => rw [ih2, ih1, advance_err]
  | termL_div hp d1 d2 ih1 ih2 => rw [ih2, ih1, advance_err]
  | pw_rec d1 hp d2 ih1 ih2 => rw [ih2, advance_err, ih1]
  | pw_none d1 hp ih1 => rw [ih1]
  | unary_plus hp d1 ih1 => rw [ih1, advance_err]
  | unary_minus hp d1 ih1 => rw [ih1, advance_err]
  | unary_prim d1 ih1 => rw [ih1]
  | primary_num h => rw [advance_err]
  | primary_paren h d1 hrp ih1 => rw [advance_err, ih1, advance_err]

/-- In a loop derivation the final tree extends the accumulator, so
`NoDivZero` of the final tree gives `NoDivZero` of the accumulator. -/
theorem deriv_base {nt : Rule} {S : Scanner} {e : Expr} {S2 : Scanner}
    (d : Deriv nt S e S2) :
    ∀ acc : Expr, (nt = Rule.exprL acc ∨ nt = Rule.termL acc) →
      NoDivZero e → NoDivZero acc := by
  induction d with
  | expr d1 d2 ih1 ih2 =>
    intro acc h; rcases h with h | h <;> exact Rule.noConfusion h
  | exprL_done h1 h2 =>
    intro acc h hnd
    rcases h with h | h
    · injection h with h'; rw [← h']; exact hnd
    · exact Rule.noConfusion h
  | exprL_plus hp d1 d2 ih1 ih2 =>
    intro acc h hnd
    rcases h with h | h
    · injection h with h'
      rw [← h']
      exact (ih2 _ (Or.inl rfl) hnd).1
    · exact Rule.noConfusion h
  | exprL_minus hp d1 d2 ih1 ih2 =>
    intro acc h hnd
    rcases h with h | h
    · injection h with h'
      rw [← h']
      exact (ih2 _ (Or.inl rfl) hnd).1
    · exact Rule.noConfusion h
  | term d1 d2 ih1 ih2 =>
    intro acc h; rcases h with h | h <;> exact Rule.noConfusion h
  | termL_done h1 h2 =>
    intro acc h hnd
    rcases h with h | h
    · exact Rule.noConfusion h
    · injection h with h'; rw [← h']; exact hnd
  | termL_mul hp d1 d2 ih1 ih2 =>
    intro acc h hnd
    rcases h with h | h
    · exact Rule.noConfusion h
    · injection h with h'
      rw [← h']
      exact (ih2 _ (Or.inr rfl) hnd).1
  | termL_div hp d1 d2 ih1 ih2 =>
    intro acc h hnd
    rcases h with h | h
    · exact Rule.noConfusion h
    · injection h with h'
      rw [← h']
      exact (ih2 _ (Or.inr rfl) hnd).1
  | pw_rec d1 hp d2 ih1 ih2 =>
    intro acc h; rcases h with h | h <;> exact Rule.noConfusion h
  | pw_none d1 hp ih1 =>
    intro acc h; rcases h with h | h <;> exact Rule.noConfusion h
  | unary_plus hp d1 ih1 =>
    intro acc h; rcases h with h | h <;> exact Rule.noConfusion h
  | unary_minus hp d1 ih1 =>
    intro acc h; rcases h with h | h <;> exact Rule.noConfusion h
  | unary_prim d1 ih1 =>
    intro acc h; rcases h with h | h <;> exact Rule.noConfusion h
  | primary_num h =>
    intro acc hx; rcases hx with hx | hx <;> exact Rule.noConfusion hx
  | primary_paren h d1 hrp ih1 =>
    intro acc hx; rcases hx with hx | hx <;> exact Rule.noConfusion hx

/-- Soundness of the fused parser/evaluator against the spec grammar: a
derivation starting from an error-free state, whose tree has no zero
divisor, is reproduced exactly by the corresponding parsing function of
calc.c with enough fuel — same final state, and the computed `Value` is the
standard infix evaluation of the derived tree. -/
theorem deriv_sound {nt : Rule} {S : Scanner} {e : Expr} {S2 : Scanner}
    (d : Deriv nt S e S2) :
    S.err_pos = 0 → NoDivZero e →
      ∃ f, runRule nt f S = some (spec_eval e, S2) := by
  induction d with
  | expr d1 d2 ih1 ih2 =>
    intro herr hnd
    obtain ⟨f1, h1⟩ := ih1 herr (deriv_base d2 _ (Or.inl rfl) hnd)
    obtain ⟨f2, h2⟩ := ih2 (by rw [deriv_err d1]; exact herr) hnd
    refine ⟨max f1 f2 + 1, ?_⟩
    have h1' := parse_term_mono (le_max_left f1 f2) h1
    have h2' := parse_expr_loop_mono (le_max_right f1 f2) h2
    simp only [runRule] at h1' h2' ⊢
    simp only [parse_expr, h1']
    exact h2'
  | exprL_done h1 h2 =>
    intro herr hnd
    refine ⟨1, ?_⟩
    simp only [runRule, parse_expr_loop]
    rw [if_neg (fun h => h.elim h1 h2)]
  | exprL_plus hp d1 d2 ih1 ih2 =>
    intro herr hnd
    have hnd2 := deriv_base d2 _ (Or.inl rfl) hnd
    obtain ⟨f1, h1⟩ := ih1 (by rw [advance_err]; exact herr) hnd2.2
    have herr1 := deriv_err d1
    rw [advance_err, herr] at herr1
    obtain ⟨f2, h2⟩ := ih2 herr1 hnd
    refine ⟨max f1 f2 + 1, ?_⟩
    have h1' := parse_term_mono (le_max_left f1 f2) h1
    have h2' := parse_expr_loop_mono (le_max_right f1 f2) h2
    simp only [runRule] at h1' h2' ⊢
    simp only [parse_expr_loop]
    rw [if_pos (Or.inl hp)]
    simp only [h1']
    rw [if_neg (fun hc => hc herr1), if_pos hp]
    exact h2'
  | exprL_minus hp d1 d2 ih1 ih2 =>
    intro herr hnd
    have hnd2 := deriv_base d2 _ (Or.inl rfl) hnd
    obtain ⟨f1, h1⟩ := ih1 (by rw [advance_err]; exact herr) hnd2.2
    have herr1 := deriv_err d1
    rw [advance_err, herr] at herr1
    obtain ⟨f2, h2⟩ := ih2 herr1 hnd
    refine ⟨max f1 f2 + 1, ?_⟩
    have h1' := parse_term_mono (le_max_left f1 f2) h1
    have h2' := parse_expr_loop_mono (le_max_right f1 f2) h2
    simp only [runRule] at h1' h2' ⊢
    simp only [parse_expr_loop]
    rw [if_pos (Or.inr hp)]
    simp only [h1']
    rw [if_neg (fun hc => hc herr1)]
    rw [if_neg (by rw [hp]; exact fun hc => TokType.noConfusion hc)]
    exact h2'
  | term d1 d2 ih1 ih2 =>
    intro herr hnd
    obtain ⟨f1, h1⟩ := ih1 herr (deriv_base d2 _ (Or.inr rfl) hnd)
    obtain ⟨f2, h2⟩ := ih2 (by rw [deriv_err d1]; exact herr) hnd
    refine ⟨max f1 f2 + 1, ?_⟩
    have h1' := parse_power_mono (le_max_left f1 f2) h1
    have h2' := parse_term_loop_mono (le_max_right f1 f2) h2
    simp only [runRule] at h1' h2' ⊢
    simp only [parse_term, h1']
    exact h2'
  | termL_done h1 h2 =>
    intro herr hnd
    refine ⟨1, ?_⟩
    simp only [runRule, parse_term_loop]
    rw [if_neg (fun h => h.elim h1 h2)]
  | termL_mul hp d1 d2 ih1 ih2 =>
    intro herr hnd
    have hnd2 := deriv_base d2 _ (Or.inr rfl) hnd
    obtain ⟨f1, h1⟩ := ih1 (by rw [advance_err]; exact herr) hnd2.2
    have herr1 := deriv_err d1
    rw [advance_err, herr] at herr1
    obtain ⟨f2, h2⟩ := ih2 herr1 hnd
    refine ⟨max f1 f2 + 1, ?_⟩
    have h1' := parse_power_mono (le_max_left f1 f2) h1
    have h2' := parse_term_loop_mono (le_max_right f1 f2) h2
    simp only [runRule] at h1' h2' ⊢
    simp only [parse_term_loop]
    rw [if_pos (Or.inl hp)]
    simp only [h1']
    rw [if_neg (fun hc => hc herr1), if_pos hp]
    rw [if_neg (fun hc => hc herr1)]
    exact h2'
  | termL_div hp d1 d2 ih1 ih2 =>
    intro herr hnd
    have hnd2 := deriv_base d2 _ (Or.inr rfl) hnd
    have hz : is_zero (spec_eval _) = false := hnd2.2.2
    obtain ⟨f1, h1⟩ := ih1 (by rw [advance_err]; exact herr) hnd2.2.1
    have herr1 := deriv_err d1
    rw [advance_err, herr] at herr1
    obtain ⟨f2, h2⟩ := ih2 herr1 hnd
    refine ⟨max f1 f2 + 1, ?_⟩
    have h1' := parse_power_mono (le_max_left f1 f2) h1
    have h2' := parse_term_loop_mono (le_max_right f1 f2) h2
    simp only [runRule] at h1' h2' ⊢
    simp only [parse_term_loop]
    rw [if_pos (Or.inr hp)]
    simp only [h1']
    rw [if_neg (fun hc => hc herr1)]
    rw [hp]
    rw [if_neg (show ¬(TokType.t_slash = TokType.t_star) from
      fun hc => TokType.noConfusion hc)]
    rw [show ∀ a b : Value, ∀ e sp : ℕ, is_zero b = false → v_div a b e sp =
        (make_double (qdiv (toDouble a) (toDouble b)), e) from
      fun a b e sp hzz => by rw [v_div, if_neg (by rw [hzz]; exact Bool.false_ne_true)]]
    · rw [if_neg (fun hc => hc herr1)]
      exact h2'
    · exact hz
  | pw_rec d1 hp d2 ih1 ih2 =>
    intro herr hnd
    obtain ⟨f1, h1⟩ := ih1 herr hnd.1
    have herr1 := deriv_err d1
    rw [herr] at herr1
    obtain ⟨f2, h2⟩ := ih2 (by rw [advance_err]; exact herr1) hnd.2
    refine ⟨max f1 f2 + 1, ?_⟩
    have h1' := parse_unary_mono (le_max_left f1 f2) h1
    have h2' := parse_power_mono (le_max_right f1 f2) h2
    simp only [runRule] at h1' h2' ⊢
    simp only [parse_power, h1']
    rw [if_pos hp]
    simp only [h2']
    rfl
  | pw_none d1 hp ih1 =>
    intro herr hnd
    obtain ⟨f1, h1⟩ := ih1 herr hnd
    refine ⟨f1 + 1, ?_⟩
    simp only [runRule] at h1 ⊢
    simp only [parse_power, h1]
    rw [if_neg hp]
  | unary_plus hp d1 ih1 =>
    intro herr hnd
    obtain ⟨f1, h1⟩ := ih1 (by rw [advance_err]; exact herr) hnd
    refine ⟨f1 + 1, ?_⟩
    simp only [runRule] at h1 ⊢
    simp only [parse_unary]
    rw [if_pos hp]
    exact h1
  | unary_minus hp d1 ih1 =>
    intro herr hnd
    obtain ⟨f1, h1⟩ := ih1 (by rw [advance_err]; exact herr) hnd
    refine ⟨f1 + 1, ?_⟩
    simp only [runRule] at h1 ⊢
    simp only [parse_unary]
    rw [if_neg (by rw [hp]; exact fun hc => TokType.noConfusion hc)]
    rw [if_pos hp]
    simp only [h1]
    rfl
  | unary_prim d1 ih1 =>
    intro herr hnd
    obtain ⟨f1, h1⟩ := ih1 herr hnd
    refine ⟨f1 + 1, ?_⟩
    simp only [runRule] at h1 ⊢
    simp only [parse_unary]
    rw [if_neg (by
      cases d1 with
      | primary_num h => rw [h]; exact fun hc => TokType.noConfusion hc
      | primary_paren h d hrp => rw [h]; exact fun hc => TokType.noConfusion hc)]
    rw [if_neg (by
      cases d1 with
      | primary_num h => rw [h]; exact fun hc => TokType.noConfusion hc
      | primary_paren h d hrp => rw [h]; exact fun hc => TokType.noConfusion hc)]
    exact h1
  | primary_num h =>
    intro herr hnd
    refine ⟨1, ?_⟩
    simp only [runRule, parse_primary]
    rw [if_pos h]
    rfl
  | primary_paren h d1 hrp ih1 =>
    intro herr hnd
    obtain ⟨f1, h1⟩ := ih1 (by rw [advance_err]; exact herr) hnd
    have herr1 := deriv_err d1
    rw [advance_err, herr] at herr1
    refine ⟨f1 + 1, ?_⟩
    simp only [runRule] at h1 ⊢
    simp only [parse_primary]
    rw [if_neg (by rw [h]; exact fun hc => TokType.noConfusion hc)]
    rw [if_pos h]
    simp only [h1]
    rw [if_neg (fun hc => hc herr1)]
    rw [if_neg (fun hc => hc hrp)]

/-- Combining soundness with fuel sufficiency and monotonicity: a full
grammar derivation ending at end-of-input with no zero divisor determines the
outcome of `eval_buffer` — success with the standard infix value. -/
theorem eval_buffer_of_deriv {buf : List Char} {e : Expr} {S2 : Scanner}
    (d : Deriv Rule.expr (advance (init_scanner buf)) e S2)
    (heof : S2.cur.type = TokType.t_eof) (hnd : NoDivZero e) :
    eval_buffer buf = some ⟨true, spec_eval e, 0⟩ := by
  have herr0 : (advance (init_scanner buf)).err_pos = 0 := rfl
  obtain ⟨f1, h1⟩ := deriv_sound d herr0 hnd
  have hadv : mS (advance (init_scanner buf)) ≤ buf.length := advance_m (init_scanner buf)
  have hsome := (parse_suff_all (8 * buf.length + 16)).1 (advance (init_scanner buf)) (by omega)
  obtain ⟨r0, h0⟩ := Option.isSome_iff_exists.1 hsome
  have e1 := parse_expr_mono (le_max_left f1 (8 * buf.length + 16)) h1
  have e2 := parse_expr_mono (le_max_right f1 (8 * buf.length + 16)) h0
  rw [e1] at e2
  rw [← e2] at h0
  have herrS2 : S2.err_pos = 0 := (deriv_err d).trans herr0
  rw [eval_buffer, eval_bufferF]
  simp only [h0]
  rw [if_neg (fun hc => hc herrS2)]
  rw [if_neg (fun hc => hc heof)]

/-!
The result formatter of calc.c (`print_value` and its helpers), needed for
the formatting claims.
-/

/-- Modelled from the spec and the C library function `llround` (not part of
src/): round to the nearest integer, halfway cases away from zero. -/
def llroundQ (x : ℚ) : ℤ :=
  if x.num < 0 then -((qadd (-x) (mkRat 1 2)).num / ((qadd (-x) (mkRat 1 2)).den : ℤ))
  else (qadd x (mkRat 1 2)).num / ((qadd x (mkRat 1 2)).den : ℤ)

/-- `is_integral_double` of calc.c: the double is within `1e-12` of the
nearest whole number. -/
def is_integral_double (x : ℚ) : Bool :=
  decide (fabsQ (qsub x ((llroundQ x : ℤ) : ℚ)) < mkRat 1 (10 ^ 12))

/-- Modelled from the spec: the `%.15g` rendering of a non-integral double
("general/shortest round-trippable representation with up to 15 significant
digits").  Digit selection for inexact doubles lies outside the exact
rational model and is not exercised by any claim; the exact rational is
rendered instead. -/
def formatG (d : ℚ) : String := toString d

/-- `print_value` of calc.c: integers in decimal; floats within `1e-12` of a
whole number as that whole number; other floats in `%.15g` form.  Each output
is newline-terminated. -/
def print_value (v : Value) : String :=
  match v with
  | Value.int i => toString i ++ "\n"
  | Value.float d =>
    if is_integral_double d then toString (llroundQ d) ++ "\n"
    else formatG d ++ "\n"

/-- Regression check of the float lexing path: a literal with a dot stays a
float and evaluates exactly. -/
theorem float_literal_example :
    eval_buffer ("1.5 + 2".toList) = some ⟨true, make_double (mkRat 7 2), 0⟩ := by decide

/-- Regression check of the exponent lexing path. -/
theorem exponent_literal_example :
    eval_buffer ("2e3".toList) = some ⟨true, make_double 2000, 0⟩ := by decide

/-!
The claims.
-/

/-- C1: for every valid input buffer — one derived by the spec grammar from
the initial parser state, consuming the input up to end-of-input — containing
no division whose right operand is zero, `evaluate` returns `Success` and the
value matches standard infix evaluation of the derived tree under the stated
integer/float promotion rules; in particular `2 + 3 * 4` evaluates to
`Success(Integer(14))`. -/
theorem c1_valid_input_evaluation :
    (∀ (buf : List Char) (e : Expr) (S2 : Scanner),
        Deriv Rule.expr (advance (init_scanner buf)) e S2 →
        S2.cur.type = TokType.t_eof → NoDivZero e →
        eval_buffer buf = some ⟨true, spec_eval e, 0⟩) ∧
    eval_buffer ("2 + 3 * 4".toList) = some ⟨true, make_int 14, 0⟩ := by
  constructor
  · intro buf e S2 d heof hnd
    exact eval_buffer_of_deriv d heof hnd
  · decide

/-- Witness for C1 at the concrete input `7`, with its grammar derivation
built by hand. -/
theorem c1_witness : eval_buffer ("7".toList) = some ⟨true, make_int 7, 0⟩ := by
  have hnum : (advance (init_scanner ("7".toList))).cur.type = TokType.t_num := by decide
  have d1 := Deriv.primary_num hnum
  have d2 := Deriv.unary_prim d1
  have d3 := Deriv.pw_none d2 (by decide)
  have d4 := Deriv.term d3 (Deriv.termL_done (by decide) (by decide))
  have d5 := Deriv.expr d4 (Deriv.exprL_done (by decide) (by decide))
  exact c1_valid_input_evaluation.1 _ _ _ d5 (by decide) trivial

/-- C2: exponentiation is right-associative — after the left operand is
parsed by `unary`, a `**` token makes `parse_power` recurse into the full
power rule for the right operand — and `v_pow` always produces a
floating-point result; in particular `2 ** 3 ** 2` groups as `2 ** (3 ** 2)`
and evaluates to `Success(Float(512))`. -/
theorem c2_power_right_assoc :
    (∀ (f : ℕ) (S : Scanner) (l : Value) (S1 : Scanner),
        parse_unary f S = some (l, S1) → S1.cur.type = TokType.t_pow →
        parse_power (f + 1) S =
          Option.map (fun p => (v_pow l p.1, p.2)) (parse_power f (advance S1))) ∧
    (∀ a b : Value, (v_pow a b).is_float = true) ∧
    eval_buffer ("2 ** 3 ** 2".toList) = some ⟨true, make_double 512, 0⟩ := by
  refine ⟨?_, fun a b => rfl, by decide⟩
  intro f S l S1 hu hp
  simp only [parse_power, hu]
  rw [if_pos hp]
  cases hpw : parse_power f (advance S1) with
  | none => simp [hpw]
  | some q =>
    obtain ⟨r, S2⟩ := q
    simp [hpw]

/-- Witness for C2: the structural right-associativity statement applied at
the concrete input `2 ** 3`. -/
theorem c2_witness :
    parse_power 6 (advance (init_scanner ("2 ** 3".toList))) =
      Option.map (fun p => (v_pow (make_int 2) p.1, p.2))
        (parse_power 5 (advance (advance (advance (init_scanner ("2 ** 3".toList)))))) :=
  c2_power_right_assoc.1 5 (advance (init_scanner ("2 ** 3".toList))) (make_int 2)
    (advance (advance (init_scanner ("2 ** 3".toList)))) (by decide) (by decide)

/-- C3: unary minus binds tighter than `**`: `-2 ** 2` evaluates as
`(-2) ** 2` to `Float(4)` and is formatted as `4`; the inline negation in
`parse_unary` preserves the operand's kind. -/
theorem c3_unary_binds_tighter :
    eval_buffer ("-2 ** 2".toList) = some ⟨true, make_double 4, 0⟩ ∧
    print_value (make_double 4) = "4\n" ∧
    (∀ v : Value, (negate v).is_float = v.is_float) := by
  refine ⟨by decide, by decide, ?_⟩
  intro v
  cases v <;> rfl

/-- C4: a division whose right operand is zero latches the error at the
position of the `/` token (when no earlier error exists) and yields the
dummy `Integer(0)`; a division with a nonzero divisor always produces a
floating-point result regardless of operand kinds; in particular `10 / 0`
yields `Failure(4)`, the 1-based position of the `/`. -/
theorem c4_division :
    (∀ (a b : Value) (e sp : ℕ), is_zero b = true → e = 0 →
        v_div a b e sp = (make_int 0, sp)) ∧
    (∀ (a b : Value) (e sp : ℕ), is_zero b = false →
        v_div a b e sp = (make_double (qdiv (toDouble a) (toDouble b)), e) ∧
          (v_div a b e sp).1.is_float = true) ∧
    eval_buffer ("10 / 0".toList) = some ⟨false, make_int 0, 4⟩ := by
  refine ⟨?_, ?_, by decide⟩
  · intro a b e sp hz he
    rw [v_div, if_pos hz, if_pos he]
  · intro a b e sp hz
    constructor
    · rw [v_div, if_neg (by rw [hz]; exact Bool.false_ne_true)]
    · rw [v_div, if_neg (by rw [hz]; exact Bool.false_ne_true)]
      rfl

/-- Witness for C4: division by zero records the slash position, and a
nonzero division is floating-point, at concrete operands. -/
theorem c4_witness :
    v_div (make_int 10) (make_int 0) 0 4 = (make_int 0, 4) ∧
    (v_div (make_int 1) (make_int 2) 0 9).1.is_float = true :=
  ⟨c4_division.1 (make_int 10) (make_int 0) 0 4 (by decide) rfl,
    (c4_division.2.1 (make_int 1) (make_int 2) 0 9 (by decide)).2⟩

/-- C5: when end-of-input is reached where a primary is required, or a
parenthesized sub-expression is not followed by `)` and input has run out,
the error is latched at the end-of-input position; concretely `(1 + 2`
yields `Failure(7)` (one past the last of its 6 characters) and a file
consisting only of a comment line yields `Failure` at its end-of-input
position 16. -/
theorem c5_eof_errors :
    (∀ (f : ℕ) (S : Scanner), S.cur.type = TokType.t_eof →
        parse_primary (f + 1) S =
          some (make_int 0, advance (set_error S S.cur.start_pos))) ∧
    (∀ (f : ℕ) (S : Scanner) (v : Value) (S1 : Scanner),
        S.cur.type = TokType.t_lparen →
        parse_expr f (advance S) = some (v, S1) →
        S1.err_pos = 0 → S1.cur.type = TokType.t_eof →
        parse_primary (f + 1) S = some (make_int 0, set_error S1 S1.pos)) ∧
    eval_buffer ("(1 + 2".toList) = some ⟨false, make_int 0, 7⟩ ∧
    eval_buffer ("# comment only\n".toList) = some ⟨false, make_int 0, 16⟩ := by
  refine ⟨?_, ?_, by decide, by decide⟩
  · intro f S heof
    rw [parse_primary]
    rw [if_neg (by rw [heof]; exact fun hc => TokType.noConfusion hc)]
    rw [if_neg (by rw [heof]; exact fun hc => TokType.noConfusion hc)]
  · intro f S v S1 hlp hx herr heof
    rw [parse_primary]
    rw [if_neg (by rw [hlp]; exact fun hc => TokType.noConfusion hc)]
    rw [if_pos hlp]
    simp only [hx]
    rw [if_neg (fun hc => hc herr)]
    rw [if_pos (by rw [heof]; exact fun hc => TokType.noConfusion hc)]
    rw [if_pos heof]

/-- Witness for C5: both end-of-input error rules applied at concrete
inputs (the empty buffer, and the unterminated `(1`). -/
theorem c5_witness :
    parse_primary 3 (advance (init_scanner [])) =
      some (make_int 0, advance (set_error (advance (init_scanner []))
        (advance (init_scanner [])).cur.start_pos)) ∧
    parse_primary 11 (advance (init_scanner ("(1".toList))) =
      some (make_int 0,
        set_error (advance (advance (advance (init_scanner ("(1".toList)))))
          (advance (advance (advance (init_scanner ("(1".toList))))).pos) :=
  ⟨c5_eof_errors.1 2 (advance (init_scanner [])) (by decide),
    c5_eof_errors.2.1 10 (advance (init_scanner ("(1".toList))) (make_int 1)
      (advance (advance (advance (init_scanner ("(1".toList)))))
      (by decide) (by decide) (by decide) (by decide)⟩

/-- C6: first error wins — `set_error` and `v_div` never overwrite a nonzero
error position, the lexer (`advance`) never touches it, and every parsing
function leaves a nonzero error position exactly as it found it, so the
position reported in a `Failure` outcome is the first fault discovered. -/
theorem c6_first_error_wins :
    (∀ (S : Scanner) (p : ℕ), S.err_pos ≠ 0 → set_error S p = S) ∧
    (∀ (a b : Value) (e sp : ℕ), e ≠ 0 → (v_div a b e sp).2 = e) ∧
    (∀ S : Scanner, (advance S).err_pos = S.err_pos) ∧
    (∀ (f : ℕ) (S : Scanner) (v : Value) (S1 : Scanner),
        parse_expr f S = some (v, S1) → S.err_pos ≠ 0 → S1.err_pos = S.err_pos) ∧
    (∀ (f : ℕ) (w : Value) (S : Scanner) (v : Value) (S1 : Scanner),
        parse_expr_loop f w S = some (v, S1) → S.err_pos ≠ 0 → S1.err_pos = S.err_pos) ∧
    (∀ (f : ℕ) (S : Scanner) (v : Value) (S1 : Scanner),
        parse_term f S = some (v, S1) → S.err_pos ≠ 0 → S1.err_pos = S.err_pos) ∧
    (∀ (f : ℕ) (w : Value) (S : Scanner) (v : Value) (S1 : Scanner),
        parse_term_loop f w S = some (v, S1) → S.err_pos ≠ 0 → S1.err_pos = S.err_pos) ∧
    (∀ (f : ℕ) (S : Scanner) (v : Value) (S1 : Scanner),
        parse_power f S = some (v, S1) → S.err_pos ≠ 0 → S1.err_pos = S.err_pos) ∧
    (∀ (f : ℕ) (S : Scanner) (v : Value) (S1 : Scanner),
        parse_unary f S = some (v, S1) → S.err_pos ≠ 0 → S1.err_pos = S.err_pos) ∧
    (∀ (f : ℕ) (S : Scanner) (v : Value) (S1 : Scanner),
        parse_primary f S = some (v, S1) → S.err_pos ≠ 0 → S1.err_pos = S.err_pos) := by
  refine ⟨fun S p h => set_error_of_ne h p, fun a b e sp h => v_div_err_ne h,
    advance_err, ?_, ?_, ?_, ?_, ?_, ?_, ?_⟩
  · exact fun f => (parse_err_all f).1
  · exact fun f => (parse_err_all f).2.1
  · exact fun f => (parse_err_all f).2.2.1
  · exact fun f => (parse_err_all f).2.2.2.1
  · exact fun f => (parse_err_all f).2.2.2.2.1
  · exact fun f => (parse_err_all f).2.2.2.2.2.1
  · exact fun f => (parse_err_all f).2.2.2.2.2.2

/-- Witness for C6 at concrete states carrying a latched error position 5. -/
theorem c6_witness :
    set_error ⟨[], 1, 5, make_simple TokType.t_eof 0⟩ 9 =
      (⟨[], 1, 5, make_simple TokType.t_eof 0⟩ : Scanner) ∧
    (v_div (make_int 1) (make_int 0) 5 9).2 = 5 ∧
    (advance (advance (⟨("1".toList), 1, 5, make_simple TokType.t_eof 0⟩ : Scanner))).err_pos =
      (advance (⟨("1".toList), 1, 5, make_simple TokType.t_eof 0⟩ : Scanner)).err_pos :=
  ⟨c6_first_error_wins.1 _ 9 (by decide),
    c6_first_error_wins.2.1 (make_int 1) (make_int 0) 5 9 (by decide),
    c6_first_error_wins.2.2.2.2.2.2.2.2.1 10
      (advance (⟨("1".toList), 1, 5, make_simple TokType.t_eof 0⟩ : Scanner))
      (make_int 1)
      (advance (advance (⟨("1".toList), 1, 5, make_simple TokType.t_eof 0⟩ : Scanner)))
      (by decide) (by decide)⟩

/-- C7: evaluation terminates on every input buffer: the fused
parse/evaluate pass, run at the fuel `eval_buffer` uses, always produces an
outcome — a `Success` value or a latched error position — and never runs
out of fuel. -/
theorem c7_termination : ∀ buf : List Char, (eval_buffer buf).isSome = true :=
  fun buf => eval_bufferF_suff buf

/-- C8 counterexample: at a lone `.` the numeric scan finds no valid
literal, and the lexer produces an invalid token WITHOUT advancing — the
remaining input and position are unchanged — refuting the claim that
invalid-token production always advances at least one character. -/
theorem c8_counterexample :
    next_token ['.'] 1 = (make_simple TokType.t_invalid 1, ['.'], 1) := by decide

/-- C8 amended: an invalid token produced by the unknown-character branch
advances the cursor by exactly one character, but an invalid token produced
by a failed numeric scan (cursor at a digit or dot that starts no valid
literal, e.g. a lone dot) leaves the cursor where it was. -/
theorem c8_invalid_advance :
    (∀ (l : List Char) (p q : ℕ) (c : Char) (r : List Char),
        skip_ws_and_comments l p = (c :: r, q) →
        ¬(c.isDigit = true ∨ c = '.') → c ≠ '+' → c ≠ '-' → c ≠ '(' → c ≠ ')' →
        c ≠ '/' → c ≠ '*' →
        next_token l p = (make_simple TokType.t_invalid q, r, q + 1)) ∧
    (∀ (l : List Char) (p q : ℕ) (c : Char) (r : List Char),
        skip_ws_and_comments l p = (c :: r, q) →
        (c.isDigit = true ∨ c = '.') → scan_mantissa (c :: r) = none →
        next_token l p = (make_simple TokType.t_invalid q, c :: r, q)) := by
  constructor
  · intro l p q c r hs hd hplus hminus hlp hrp hsl hst
    simp only [next_token, hs]
    rw [if_neg hd, if_neg hplus, if_neg hminus, if_neg hlp, if_neg hrp,
      if_neg hsl, if_neg hst]
  · intro l p q c r hs hd hm
    simp only [next_token, hs]
    rw [if_pos hd]
    simp only [scan_number, hm]

/-- Witness for C8: the unknown character `@` advances one; the lone dot
does not advance. -/
theorem c8_witness :
    next_token ['@'] 1 = (make_simple TokType.t_invalid 1, [], 2) ∧
    next_token ['.'] 3 = (make_simple TokType.t_invalid 3, ['.'], 3) :=
  ⟨c8_invalid_advance.1 ['@'] 1 1 '@' [] (by decide) (by decide) (by decide)
      (by decide) (by decide) (by decide) (by decide) (by decide),
    c8_invalid_advance.2 ['.'] 3 3 '.' [] (by decide) (by decide) (by decide)⟩

/-- C9 counterexample: on input `2**(` an error is latched at position 5
inside the right operand of `**`, yet `parse_power` returns the computed
value `Float(1)` — `v_pow` applied to the dummy — not `Integer(0)`. -/
theorem c9_counterexample :
    (parse_power 40 (advance (init_scanner ("2**(".toList)))).map
        (fun p => (p.1, p.2.err_pos)) = some (make_double 1, 5) := by decide

/-- C9 amended: with an error latched by their subcall, the `expr` and
`term` loops short-circuit and return `Integer(0)`, but the `power` rule
performs no error check and applies `v_pow` to the returned dummy value;
the reported outcome is nonetheless a `Failure` carrying the latched
position, because `eval_buffer` checks the error slot after parsing. -/
theorem c9_error_short_circuit :
    (∀ (f : ℕ) (w : Value) (S : Scanner) (r : Value) (S1 : Scanner),
        (S.cur.type = TokType.t_plus ∨ S.cur.type = TokType.t_minus) →
        parse_term f (advance S) = some (r, S1) → S1.err_pos ≠ 0 →
        parse_expr_loop (f + 1) w S = some (make_int 0, S1)) ∧
    (∀ (f : ℕ) (w : Value) (S : Scanner) (r : Value) (S1 : Scanner),
        (S.cur.type = TokType.t_star ∨ S.cur.type = TokType.t_slash) →
        parse_power f (advance S) = some (r, S1) → S1.err_pos ≠ 0 →
        parse_term_loop (f + 1) w S = some (make_int 0, S1)) ∧
    (∀ (f : ℕ) (S : Scanner) (l : Value) (S1 : Scanner) (r : Value) (S2 : Scanner),
        parse_unary f S = some (l, S1) → S1.cur.type = TokType.t_pow →
        parse_power f (advance S1) = some (r, S2) →
        parse_power (f + 1) S = some (v_pow l r, S2)) ∧
    (∀ (fuel : ℕ) (buf : List Char) (v : Value) (S2 : Scanner),
        parse_expr fuel (advance (init_scanner buf)) = some (v, S2) →
        S2.err_pos ≠ 0 →
        eval_bufferF fuel buf = some ⟨false, make_int 0, S2.err_pos⟩) := by
  refine ⟨?_, ?_, ?_, ?_⟩
  · intro f w S r S1 hc ht herr
    rw [parse_expr_loop, if_pos hc]
    simp only [ht]
    rw [if_pos herr]
  · intro f w S r S1 hc ht herr
    rw [parse_term_loop, if_pos hc]
    simp only [ht]
    rw [if_pos herr]
  · intro f S l S1 r S2 hu hp hpw
    simp only [parse_power, hu]
    rw [if_pos hp]
    simp only [hpw]
  · intro fuel buf v S2 hx herr
    rw [eval_bufferF]
    simp only [hx]
    rw [if_pos herr]

/-- Witness for C9: each amended conjunct at concrete inputs (`1 + .`,
`1 * .`, `2**3`, `10 / 0`). -/
theorem c9_witness :
    parse_expr_loop 11 (make_int 1) (advance (advance (init_scanner ("1 + .".toList)))) =
      some (make_int 0, ⟨['.'], 5, 5, make_simple TokType.t_invalid 5⟩) ∧
    parse_term_loop 11 (make_int 1) (advance (advance (init_scanner ("1 * .".toList)))) =
      some (make_int 0, ⟨['.'], 5, 5, make_simple TokType.t_invalid 5⟩) ∧
    parse_power 11 (advance (init_scanner ("2**3".toList))) =
      some (v_pow (make_int 2) (make_int 3),
        advance (advance (advance (advance (init_scanner ("2**3".toList)))))) ∧
    eval_bufferF 30 ("10 / 0".toList) = some ⟨false, make_int 0,
      (⟨[], 7, 4, make_simple TokType.t_eof 7⟩ : Scanner).err_pos⟩ :=
  ⟨c9_error_short_circuit.1 10 (make_int 1)
      (advance (advance (init_scanner ("1 + .".toList)))) (make_int 0)
      (⟨['.'], 5, 5, make_simple TokType.t_invalid 5⟩ : Scanner)
      (by decide) (by decide) (by decide),
    c9_error_short_circuit.2.1 10 (make_int 1)
      (advance (advance (init_scanner ("1 * .".toList)))) (make_int 0)
      (⟨['.'], 5, 5, make_simple TokType.t_invalid 5⟩ : Scanner)
      (by decide) (by decide) (by decide),
    c9_error_short_circuit.2.2.1 10 (advance (init_scanner ("2**3".toList)))
      (make_int 2) (advance (advance (init_scanner ("2**3".toList)))) (make_int 3)
      (advance (advance (advance (advance (init_scanner ("2**3".toList))))))
      (by decide) (by decide) (by decide),
    c9_error_short_circuit.2.2.2 30 ("10 / 0".toList) (make_int 0)
      (⟨[], 7, 4, make_simple TokType.t_eof 7⟩ : Scanner)
      (by decide) (by decide)⟩

/-- C10: the empty input buffer yields `Failure(1)`: the end-of-input token
is produced at 1-based position 1, a primary is required there, and that
position is latched as the error. -/
theorem c10_empty_input :
    eval_buffer [] = some ⟨false, make_int 0, 1⟩ ∧
    next_token [] 1 = (make_simple TokType.t_eof 1, [], 1) :=
  ⟨by decide, by decide⟩

end CalcLab
